import Mathlib

/-!
Verification of the input-to-graph-model pipeline of the
Data-Structure-Visualizer repository.

The pipeline under study lives in `graphParseHelper.js`
(`validateNodes`, `validateGraphEdges`, `buildAdjacencyList`,
`assignGroups`, `formatEdges`) and `graphUpdateHelper.js`
(`isGraphStructureChanged`).  JS strings are modelled as `List Char`,
JS objects used as string-keyed dictionaries as functions `Name → _`
updated with `Function.update`, JS `Set`s as lists in insertion order,
and the JS number type as `ℚ` (only its NaN-vs-value distinction and
exact decimal values matter here).
-/

namespace GraphViz

/-- Node identifiers and raw text are modelled as lists of characters
(JS strings). -/
abbrev Name := List Char

/-- The character list of a string literal; used to write concrete inputs. -/
def str (s : String) : Name := s.data

/-- The character class `[a-zA-Z0-9_]` of the validation regex
`/^[a-zA-Z0-9_]+$/` (`validRegex` in the source), by code point. -/
def isAlnum (c : Char) : Bool :=
  (48 ≤ c.toNat && c.toNat ≤ 57) || (65 ≤ c.toNat && c.toNat ≤ 90) ||
  (97 ≤ c.toNat && c.toNat ≤ 122) || c.toNat == 95

/-- Whitespace as matched by the JS `\s` class and removed by
`String.prototype.trim`, restricted to the ASCII range (the additional
Unicode space characters cannot occur in any input considered by the
claims, whose identifiers are `[a-zA-Z0-9_]+`). -/
def isWs (c : Char) : Bool :=
  c.toNat == 32 || (9 ≤ c.toNat && c.toNat ≤ 13)

/-- `validRegex.test line`: the line is one or more `[a-zA-Z0-9_]`
characters. -/
def validName (s : Name) : Bool := !s.isEmpty && s.all isAlnum

/-- JS `String.prototype.split` with a one-character separator class:
split at every character satisfying `p`, keeping empty pieces (as JS
does). -/
def splitP (p : Char → Bool) : List Char → List (List Char)
  | [] => [[]]
  | c :: rest =>
    if p c then [] :: splitP p rest
    else (splitP p rest).modifyHead (c :: ·)

/-- `text.split('\n')`. -/
def splitNl (s : Name) : List Name := splitP (· == '\n') s

/-- `line.split(/\s+/)` on an already-trimmed line: the source only splits
trimmed non-empty lines, where splitting on whitespace runs equals
splitting at single whitespace characters and dropping empty pieces. -/
def splitWs (s : Name) : List Name :=
  (splitP isWs s).filter (fun t => !t.isEmpty)

/-- JS `String.prototype.trim`. -/
def trim (s : Name) : Name :=
  ((s.dropWhile isWs).reverse.dropWhile isWs).reverse

/-- Decimal digit test by code point. -/
def isDigit (c : Char) : Bool := 48 ≤ c.toNat && c.toNat ≤ 57

/-- Value of a digit string read in base 10. -/
def digitsToNat (s : List Char) : Nat :=
  s.foldl (fun a c => 10 * a + (c.toNat - 48)) 0

/-- Unsigned core of JS `Number`: `digits`, `digits.digits`, `digits.` or
`.digits`. -/
def jsNumCore (t : List Char) : Option ℚ :=
  let ip := t.takeWhile (fun c => c != '.')
  match t.dropWhile (fun c => c != '.') with
  | [] =>
    if !ip.isEmpty && ip.all isDigit then some (digitsToNat ip) else none
  | _ :: fp =>
    if (!ip.isEmpty || !fp.isEmpty) && ip.all isDigit && fp.all isDigit then
      some (digitsToNat ip + (digitsToNat fp : ℚ) / 10 ^ fp.length)
    else none

/-- JS `Number(wRaw)` restricted to plain (optionally signed) decimal
numerals; every other token is NaN (`none`).  The source only distinguishes
NaN from non-NaN and carries the parsed value through unchanged, so the
exotic numeral forms accepted by JS (exponents, hexadecimal, `Infinity`,
surrounding whitespace) are irrelevant to the claims and not modelled;
`wRaw` is always a non-empty whitespace-free token here. -/
def jsNumber (s : Name) : Option ℚ :=
  match s with
  | '+' :: t => jsNumCore t
  | '-' :: t => (jsNumCore t).map (fun q => -q)
  | t => jsNumCore t

/-- The two error messages pushed by `validateNodes`
(`'Invalid node name'`, `'Duplicate node name'`). -/
inductive NodeReason
  | invalidName
  | duplicate
deriving DecidableEq, Repr

/-- The error messages pushed by `validateGraphEdges`: `arity` stands for
both arity messages (`'Edge must have 2 nodes with an optional weight'`
and `'Edge must have exactly 2 nodes'`), the other constructors for
`'Invalid node name in edge'`, `'Node in edge does not exist'`,
`'Invalid weight (must be a number)'` and `'Duplicate edge'`. -/
inductive EdgeReason
  | arity
  | invalidName
  | notExist
  | invalidWeight
  | duplicate
deriving DecidableEq, Repr

/-- An error-array entry `{ line: i, reason: ... }` (0-indexed line). -/
structure ParseErr (R : Type) where
  line : Nat
  reason : R
deriving DecidableEq, Repr

/-- The index/element pairs a JS `forEach((x, i) => ...)` iterates over,
starting at index `n`. -/
def withIdx (n : Nat) : List Name → List (Nat × Name)
  | [] => []
  | a :: l => (n, a) :: withIdx (n + 1) l

/-- One step of the `lines.forEach` loop of `validateNodes`: `acc` is the
pair (valid node list so far, error list so far); the JS `Set` of valid
nodes is the list `acc.1` in insertion order. -/
def nodeStep (acc : List Name × List (ParseErr NodeReason)) (i : Nat) (raw : Name) :
    List Name × List (ParseErr NodeReason) :=
  let line := trim raw
  if line.isEmpty then acc
  else if ¬ validName line then (acc.1, acc.2 ++ [⟨i, .invalidName⟩])
  else if line ∈ acc.1 then (acc.1, acc.2 ++ [⟨i, .duplicate⟩])
  else (acc.1 ++ [line], acc.2)

/-- The `forEach` loop of `validateNodes` over its indexed lines. -/
def nodeFold (acc : List Name × List (ParseErr NodeReason)) :
    List (Nat × Name) → List Name × List (ParseErr NodeReason)
  | [] => acc
  | p :: rest => nodeFold (nodeStep acc p.1 p.2) rest

/-- `validateNodes(text)`: returns `(validNodes, nodeErrors)`. -/
def validateNodes (text : Name) : List Name × List (ParseErr NodeReason) :=
  nodeFold ([], []) (withIdx 0 (splitNl text))

/-- A shaped link `{ source, target, value, curved, direction }` as
produced by `formatEdges`. -/
structure LinkRec where
  source : Name
  target : Name
  value : ℚ
  curved : Bool
  direction : Int
deriving DecidableEq, Repr

/-- A grouped node `{ id, group }` as produced by `assignGroups`. -/
structure NodeRec where
  id : Name
  group : Name
deriving DecidableEq, Repr

/-- The fields of the global `graphState` object that the functions under
verification consult: the mode flags and the previous cycle's node and
link data.  Rendering-only fields (svg, layers, simulation, selections,
physics coordinates on nodes) are outside the model; a rendered link's
`source`/`target` may be a bound node object in the source, whose `.id`
the structure-diff re-extracts (`d.source.id || d.source`), so links here
always carry the plain name that expression yields in either case. -/
structure GraphState where
  isDirected : Bool
  isWeighted : Bool
  currentNodes : List NodeRec
  currentLinks : List LinkRec

/-- JS default array sort order on two strings: lexicographic code-unit
comparison (`true` when `u ≤ v`). -/
def lexLe : Name → Name → Bool
  | [], _ => true
  | _ :: _, [] => false
  | a :: as, b :: bs =>
    if a.toNat < b.toNat then true
    else if b.toNat < a.toNat then false
    else lexLe as bs

/-- `[u, v].sort()` for two strings (JS sort is stable, so equal strings
keep their order). -/
def sortPair (u v : Name) : Name × Name :=
  if lexLe u v then (u, v) else (v, u)

/-- The directed duplicate key `` `${u}->${v}` ``. -/
def dirKey (u v : Name) : Name := u ++ '-' :: '>' :: v

/-- The undirected duplicate key `[u,v].sort().join('--')`. -/
def undirKey (u v : Name) : Name :=
  (sortPair u v).1 ++ '-' :: '-' :: (sortPair u v).2

/-- The duplicate-detection key of `validateGraphEdges`. -/
def edgeKey (isDirected : Bool) (u v : Name) : Name :=
  if isDirected then dirKey u v else undirKey u v

/-- The structure-diff key `[u,v].sort().join('-')` of
`isGraphStructureChanged`. -/
def diffKey (u v : Name) : Name :=
  (sortPair u v).1 ++ '-' :: (sortPair u v).2

/-- A validated edge `[u, v, weight]`. -/
structure Edge where
  src : Name
  tgt : Name
  w : ℚ
deriving DecidableEq, Repr

/-- Accumulator of the `validateGraphEdges` loop: the `seenEdges` set (as
a list in insertion order), the `edges` array and the `edgeErrors`
array. -/
structure EdgeAcc where
  seen : List Name
  edges : List Edge
  errs : List (ParseErr EdgeReason)

/-- Duplicate check and admission of one edge line (the last two checks of
the loop body): note the weight has already been parsed at this point. -/
def edgeDup (gs : GraphState) (acc : EdgeAcc) (i : Nat) (u v : Name) (wv : ℚ) :
    EdgeAcc :=
  let key := edgeKey gs.isDirected u v
  if key ∈ acc.seen then { acc with errs := acc.errs ++ [⟨i, .duplicate⟩] }
  else { acc with seen := acc.seen ++ [key], edges := acc.edges ++ [⟨u, v, wv⟩] }

/-- The checks after the arity check: name validity, existence, weight
parsing, duplicate detection — in exactly the source's order.  `parts` has
2 or 3 elements; a missing third token is JS `undefined` (`none`). -/
def edgeCheck (gs : GraphState) (validNodes : List Name) (acc : EdgeAcc)
    (i : Nat) (parts : List Name) : EdgeAcc :=
  let u := parts.getD 0 []
  let v := parts.getD 1 []
  if ¬ (validName u ∧ validName v) then
    { acc with errs := acc.errs ++ [⟨i, .invalidName⟩] }
  else if ¬ (u ∈ validNodes ∧ v ∈ validNodes) then
    { acc with errs := acc.errs ++ [⟨i, .notExist⟩] }
  else
    match parts.get? 2 with
    | some wRaw =>
      match jsNumber wRaw with
      | none => { acc with errs := acc.errs ++ [⟨i, .invalidWeight⟩] }
      | some wv => edgeDup gs acc i u v wv
    | none => edgeDup gs acc i u v 1

/-- One step of the `lines.forEach` loop of `validateGraphEdges`: skip
blank lines, check arity per mode, then run the remaining checks. -/
def edgeStep (gs : GraphState) (validNodes : List Name) (acc : EdgeAcc)
    (i : Nat) (raw : Name) : EdgeAcc :=
  let line := trim raw
  if line.isEmpty then acc
  else
    let parts := splitWs line
    if gs.isWeighted then
      if parts.length < 2 ∨ parts.length > 3 then
        { acc with errs := acc.errs ++ [⟨i, .arity⟩] }
      else edgeCheck gs validNodes acc i parts
    else
      if parts.length ≠ 2 then
        { acc with errs := acc.errs ++ [⟨i, .arity⟩] }
      else edgeCheck gs validNodes acc i parts

/-- The `forEach` loop of `validateGraphEdges` over its indexed lines. -/
def edgeFold (gs : GraphState) (validNodes : List Name) (acc : EdgeAcc) :
    List (Nat × Name) → EdgeAcc
  | [] => acc
  | p :: rest => edgeFold gs validNodes (edgeStep gs validNodes acc p.1 p.2) rest

/-- `validateGraphEdges(text, validNodes, graphState)`: returns
`(validEdges, edgeErrors)`. -/
def validateGraphEdges (text : Name) (validNodes : List Name) (gs : GraphState) :
    List Edge × List (ParseErr EdgeReason) :=
  let acc := edgeFold gs validNodes ⟨[], [], []⟩ (withIdx 0 (splitNl text))
  (acc.edges, acc.errs)

/-- A neighbor entry `{ node, weight }` of the adjacency list. -/
structure Nbr where
  node : Name
  weight : ℚ
deriving DecidableEq, Repr

/-- `buildAdjacencyList(validNodes, validEdges, graphState)`, as a
finitely-supported function from node names to neighbor lists (the JS
object `graph`).  The initialization loop gives every valid node an empty
list, which with the model's empty default is the identity; for an edge
endpoint outside `validNodes` the JS code would crash on `undefined`, a
situation excluded by the hypotheses of every theorem that uses this
function (valid edges only mention valid nodes). -/
def buildAdjacencyList (validNodes : List Name) (validEdges : List Edge)
    (gs : GraphState) : Name → List Nbr :=
  validEdges.foldl (fun g e =>
    let g1 := Function.update g e.src (g e.src ++ [⟨e.tgt, e.w⟩])
    if gs.isDirected then g1
    else Function.update g1 e.tgt (g1 e.tgt ++ [⟨e.src, e.w⟩]))
    (fun _ => [])

/-- The DSU state of `assignGroups`: the `parent` and `size` objects,
totalized as functions (outside `validNodes` the JS objects hold no
binding and are never consulted: the model maps every such name to itself
and to size 1, matching the initialization the loop performs on
`validNodes`). -/
structure DSU where
  parent : Name → Name
  size : Name → Nat

/-- The recursive path-compressing `find`, with explicit fuel standing in
for the termination of the JS recursion (the parent map is an acyclic
forest, so `validNodes.length + 1` steps always suffice; this is proved
below).  Returns the root together with the compressed parent map:
`parent[u] = find(parent[u]); return parent[u]`. -/
def findD : Nat → (Name → Name) → Name → Name × (Name → Name)
  | 0, p, u => (u, p)
  | fuel + 1, p, u =>
    if p u = u then (u, p)
    else
      let r := findD fuel p (p u)
      (r.1, Function.update r.2 u r.1)

/-- `union(u, v)` with union by size; both `find` calls compress, so the
parent map is threaded through. -/
def unionD (fuel : Nat) (st : DSU) (u v : Name) : DSU :=
  let fu := findD fuel st.parent u
  let fv := findD fuel fu.2 v
  if fu.1 = fv.1 then { st with parent := fv.2 }
  else if st.size fu.1 < st.size fv.1 then
    { parent := Function.update fv.2 fu.1 fv.1,
      size := Function.update st.size fv.1 (st.size fv.1 + st.size fu.1) }
  else
    { parent := Function.update fv.2 fv.1 fu.1,
      size := Function.update st.size fu.1 (st.size fu.1 + st.size fv.1) }

/-- The union loop of `assignGroups`:
`for u of validNodes: for neighbor of graph[u]: union(u, neighbor.node)`. -/
def unionAll (fuel : Nat) (validNodes : List Name) (graph : Name → List Nbr)
    (st : DSU) : DSU :=
  validNodes.foldl
    (fun s u => (graph u).foldl (fun s2 n => unionD fuel s2 u n.node) s) st

/-- The final `validNodes.map(node => ({id: node, group: find(node)}))`:
each `find` keeps compressing, so the parent map is threaded through the
map. -/
def groupLoop (fuel : Nat) (p : Name → Name) : List Name → List NodeRec × (Name → Name)
  | [] => ([], p)
  | node :: rest =>
    let f := findD fuel p node
    let r := groupLoop fuel f.2 rest
    (⟨node, f.1⟩ :: r.1, r.2)

/-- `assignGroups(validNodes, graph)`. -/
def assignGroups (validNodes : List Name) (graph : Name → List Nbr) :
    List NodeRec :=
  let fuel := validNodes.length + 1
  let st := unionAll fuel validNodes graph
    { parent := fun u => u, size := fun _ => 1 }
  (groupLoop fuel st.parent validNodes).1

/-- `result.find(e => e.source === target && e.target === source)` followed
by the retroactive `prev.curved = true; prev.direction = -1` of
`formatEdges`: update the first matching record. -/
def markRev (t s : Name) : List LinkRec → List LinkRec
  | [] => []
  | e :: rest =>
    if e.source = t ∧ e.target = s then
      { e with curved := true, direction := -1 } :: rest
    else e :: markRev t s rest

/-- One step of the `formatEdges` loop: `acc` is the pair
(`edgePairs` set as a list in insertion order, `result` array). -/
def formatStep (acc : List Name × List LinkRec) (e : Edge) :
    List Name × List LinkRec :=
  if dirKey e.tgt e.src ∈ acc.1 then
    (acc.1 ++ [dirKey e.src e.tgt],
      markRev e.tgt e.src acc.2 ++ [⟨e.src, e.tgt, e.w, true, 1⟩])
  else
    (acc.1 ++ [dirKey e.src e.tgt],
      acc.2 ++ [⟨e.src, e.tgt, e.w, false, 0⟩])

/-- `formatEdges(validEdges)`. -/
def formatEdges (validEdges : List Edge) : List LinkRec :=
  (validEdges.foldl formatStep ([], [])).2

/-- Specification-side description of the record `formatEdges` ends up
emitting for an edge `e` preceded by the edges `before` and followed by
the edges `after` of the same pass: curved `+1` when its exact reverse
was emitted earlier, curved `-1` when its exact reverse arrives later
(the retroactive update), straight otherwise. -/
def shaped (before : List Edge) (e : Edge) (after : List Edge) : LinkRec :=
  if ∃ f ∈ before, f.src = e.tgt ∧ f.tgt = e.src then
    ⟨e.src, e.tgt, e.w, true, 1⟩
  else if ∃ f ∈ after, f.src = e.tgt ∧ f.tgt = e.src then
    ⟨e.src, e.tgt, e.w, true, -1⟩
  else ⟨e.src, e.tgt, e.w, false, 0⟩

/-- The list of `shaped` records of a whole pass, each edge seeing the
edges before it (including the fixed context `done`) and after it. -/
def shapeWithin (done : List Edge) : List Edge → List LinkRec
  | [] => []
  | e :: rest => shaped done e rest :: shapeWithin (done ++ [e]) rest

/-- JS `new Set(array)`: deduplication preserving first insertion order
(`size` is the resulting length). -/
def mkSet (l : List Name) : List Name :=
  l.foldl (fun s x => if x ∈ s then s else s ++ [x]) []

/-- `isGraphStructureChanged(newNodes, newLinks, graphState)` together
with the graph state it was given, making explicit that the function only
reads `graphState.currentNodes` / `graphState.currentLinks` and writes
nothing: every statement of the source either builds a local `Set` or
returns, so each branch of the translation returns `gs` unchanged. -/
def isGraphStructureChangedS (newNodes : List NodeRec) (newLinks : List LinkRec)
    (gs : GraphState) : Bool × GraphState :=
  let oldNodeIds := mkSet (gs.currentNodes.map (·.id))
  let newNodeIds := mkSet (newNodes.map (·.id))
  if oldNodeIds.length ≠ newNodeIds.length ∨ ∃ x ∈ newNodeIds, x ∉ oldNodeIds then
    (true, gs)
  else
    let oldEdges := mkSet (gs.currentLinks.map fun d => diffKey d.source d.target)
    let newEdges := mkSet (newLinks.map fun d => diffKey d.source d.target)
    if oldEdges.length ≠ newEdges.length ∨ ∃ e ∈ newEdges, e ∉ oldEdges then
      (true, gs)
    else (false, gs)

/-- The boolean result of `isGraphStructureChanged`. -/
def isGraphStructureChanged (newNodes : List NodeRec) (newLinks : List LinkRec)
    (gs : GraphState) : Bool :=
  (isGraphStructureChangedS newNodes newLinks gs).1

/-- State-passing reading of `validateNodes`: the function reads no field
of `graphState` and writes nothing, so its translation pairs the pure
result with the untouched state. -/
def validateNodesS (text : Name) (gs : GraphState) :
    (List Name × List (ParseErr NodeReason)) × GraphState :=
  (validateNodes text, gs)

/-- State-passing reading of `validateGraphEdges`: the loop body reads
`graphState.isWeighted` and `graphState.isDirected` but assigns no field,
so every iteration returns the state unchanged. -/
def validateGraphEdgesS (text : Name) (validNodes : List Name) (gs : GraphState) :
    (List Edge × List (ParseErr EdgeReason)) × GraphState :=
  (validateGraphEdges text validNodes gs, gs)

/-- The parent chain from `u` down to its root in a DSU parent map: each
element's parent is the next element, and the last element is a fixed
point.  The chain from a given start is forced, hence unique. -/
inductive PChain (p : Name → Name) : Name → List Name → Prop
  | root (u : Name) : p u = u → PChain p u [u]
  | step (u : Name) {l : List Name} : p u ≠ u → PChain p (p u) l → PChain p u (u :: l)

/-- `u`'s parent chain ends at the root `r`. -/
def Reaches (p : Name → Name) (u r : Name) : Prop :=
  ∃ l, PChain p u l ∧ l.getLast? = some r

/-- Well-formedness of the DSU parent map over the node set `V`: parents
of members stay in `V`, non-members are untouched fixed points, and every
member's chain terminates in a root. -/
structure ParentInv (V : List Name) (p : Name → Name) : Prop where
  closed : ∀ u, u ∈ V → p u ∈ V
  outside : ∀ u, u ∉ V → p u = u
  terminates : ∀ u, u ∈ V → ∃ l, PChain p u l

/-- Two nodes have the same DSU root. -/
def SameRoot (p : Name → Name) (a b : Name) : Prop :=
  ∃ r, Reaches p a r ∧ Reaches p b r

/-- Connectivity by the valid edges, ignoring direction: the
reflexive–symmetric–transitive closure of the edge relation
(specification-side, used to state the grouping claim). -/
def Conn (E : List Edge) (a b : Name) : Prop :=
  Relation.EqvGen (fun x y => ∃ e ∈ E, e.src = x ∧ e.tgt = y) a b

/-- The unordered pair `{a, b}` occurs as the endpoints of some link in
`links` (specification-side predicate used to state the structure-diff
claim). -/
def pairIn (links : List LinkRec) (a b : Name) : Prop :=
  ∃ l ∈ links, (l.source = a ∧ l.target = b) ∨ (l.source = b ∧ l.target = a)

/-- A sequence of `union` calls on an explicit list of `(u, v)` pairs:
the nested loop of `assignGroups`, flattened (and proved equal to
`unionAll` below). -/
def unionList (fuel : Nat) (st : DSU) : List (Name × Name) → DSU
  | [] => st
  | q :: rest => unionList fuel (unionD fuel st q.1 q.2) rest

/-- The `(u, neighbor.node)` pairs visited by the union loop of
`assignGroups`, in visiting order. -/
def unionPairs (validNodes : List Name) (graph : Name → List Nbr) :
    List (Name × Name) :=
  validNodes.flatMap (fun u => (graph u).map (fun n => (u, n.node)))

/-! ## Basic facts about the character classes and text primitives -/

theorem isAlnum_toNat {c : Char} (h : isAlnum c = true) :
    (48 ≤ c.toNat ∧ c.toNat ≤ 57) ∨ (65 ≤ c.toNat ∧ c.toNat ≤ 90) ∨
    (97 ≤ c.toNat ∧ c.toNat ≤ 122) ∨ c.toNat = 95 := by
  unfold isAlnum at h
  simp only [Bool.or_eq_true, Bool.and_eq_true, decide_eq_true_eq, beq_iff_eq] at h
  tauto

theorem isWs_eq_false {c : Char} (h : isAlnum c = true) : isWs c = false := by
  have h2 := isAlnum_toNat h
  unfold isWs
  simp only [Bool.or_eq_false_iff, Bool.and_eq_false_iff, beq_eq_false_iff_ne, ne_eq,
    decide_eq_false_iff_not]
  omega

theorem ne_of_isAlnum {c d : Char} (h : isAlnum c = true) (hd : isAlnum d = false) :
    c ≠ d := by
  intro he
  rw [he, hd] at h
  exact Bool.false_ne_true h

/-- Every character of a valid name is in the `[a-zA-Z0-9_]` class. -/
theorem validName_mem {s : Name} (h : validName s = true) {c : Char} (hc : c ∈ s) :
    isAlnum c = true := by
  unfold validName at h
  simp only [Bool.and_eq_true, List.all_eq_true] at h
  exact h.2 c hc

theorem validName_ne_nil {s : Name} (h : validName s = true) : s ≠ [] := by
  intro he
  subst he
  simp [validName] at h

/-! ## splitP -/

theorem splitP_ne_nil (p : Char → Bool) (l : List Char) : splitP p l ≠ [] := by
  induction l with
  | nil => simp [splitP]
  | cons c rest ih =>
    unfold splitP
    split
    · simp
    · cases h : splitP p rest with
      | nil => exact absurd h ih
      | cons a t => simp [h]

theorem modifyHead_modifyHead (f g : List Char → List Char) (l : List (List Char)) :
    (l.modifyHead g).modifyHead f = l.modifyHead (f ∘ g) := by
  cases l <;> simp

theorem splitP_append_nosep (p : Char → Bool) (a t : List Char)
    (ha : ∀ c ∈ a, p c = false) :
    splitP p (a ++ t) = (splitP p t).modifyHead (a ++ ·) := by
  induction a with
  | nil =>
    cases h : splitP p t with
    | nil => exact absurd h (splitP_ne_nil p t)
    | cons x xs => simp [h]
  | cons c a' ih =>
    have hc : p c = false := ha c (List.mem_cons_self c a')
    have ih2 := ih (fun d hd => ha d (List.mem_cons_of_mem c hd))
    simp only [List.cons_append, splitP, hc, Bool.false_eq_true, if_false, List.append_eq]
    rw [ih2, modifyHead_modifyHead]
    cases h : splitP p t with
    | nil => exact absurd h (splitP_ne_nil p t)
    | cons x xs => simp

theorem splitP_nosep (p : Char → Bool) (a : List Char) (ha : ∀ c ∈ a, p c = false) :
    splitP p a = [a] := by
  have := splitP_append_nosep p a [] ha
  simpa [splitP] using this

/-! ## splitNl, splitWs, trim on well-behaved inputs -/

/-- A valid name contains no newline. -/
theorem validName_no_nl {s : Name} (h : validName s = true) :
    ∀ c ∈ s, (c == '\n') = false := by
  intro c hc
  have := ne_of_isAlnum (validName_mem h hc) (show isAlnum '\n' = false by decide)
  simpa using this

/-- A valid name contains no whitespace. -/
theorem validName_no_ws {s : Name} (h : validName s = true) :
    ∀ c ∈ s, isWs c = false :=
  fun c hc => isWs_eq_false (validName_mem h hc)

theorem splitNl_single {a : Name} (ha : ∀ c ∈ a, (c == '\n') = false) :
    splitNl a = [a] :=
  splitP_nosep _ a ha

theorem splitNl_append {a rest : Name} (ha : ∀ c ∈ a, (c == '\n') = false) :
    splitNl (a ++ '\n' :: rest) = a :: splitNl rest := by
  unfold splitNl
  rw [splitP_append_nosep _ a _ ha]
  have : splitP (· == '\n') ('\n' :: rest) = [] :: splitP (· == '\n') rest := by
    simp [splitP]
  rw [this]
  simp

theorem dropWhile_eq_self {p : Char → Bool} {l : List Char}
    (h : ∀ c, l.head? = some c → p c = false) : l.dropWhile p = l := by
  cases l with
  | nil => rfl
  | cons a t =>
    have := h a rfl
    simp [List.dropWhile_cons, this]

theorem trim_eq_self {l : Name} (hh : ∀ c, l.head? = some c → isWs c = false)
    (hl : ∀ c, l.getLast? = some c → isWs c = false) : trim l = l := by
  unfold trim
  rw [dropWhile_eq_self hh]
  rw [dropWhile_eq_self (by simpa [List.head?_reverse] using hl)]
  exact List.reverse_reverse l

/-- Trimming fixes a line whose first and last character are not
whitespace. -/
theorem trim_no_ws_ends {l : Name}
    (h : ∀ c ∈ l, isWs c = false) : trim l = l :=
  trim_eq_self (fun c hc => h c (List.mem_of_mem_head? (by simp [hc])))
    (fun c hc => h c (List.mem_of_mem_getLast? (by simp [hc])))

/-- Trimming fixes a line made of a single valid name. -/
theorem trim_name {A : Name} (hA : validName A = true) : trim A = A :=
  trim_no_ws_ends (validName_no_ws hA)

/-- Trimming fixes a `"A B"` line built from valid names. -/
theorem trim_two {A B : Name} (hA : validName A = true) (hB : validName B = true) :
    trim (A ++ ' ' :: B) = A ++ ' ' :: B := by
  refine trim_eq_self ?_ ?_
  · intro c hc
    obtain ⟨a, t, rfl⟩ : ∃ a t, A = a :: t := by
      cases A with
      | nil => exact absurd rfl (validName_ne_nil hA)
      | cons a t => exact ⟨a, t, rfl⟩
    simp only [List.cons_append, List.head?_cons, Option.some_inj] at hc
    cases hc
    exact validName_no_ws hA _ (List.mem_cons_self _ _)
  · intro c hc
    rw [List.getLast?_append_of_ne_nil _ (by simp)] at hc
    obtain ⟨b, B', rfl⟩ : ∃ b B', B = b :: B' := by
      cases B with
      | nil => exact absurd rfl (validName_ne_nil hB)
      | cons b B' => exact ⟨b, B', rfl⟩
    rw [List.getLast?_cons_cons] at hc
    exact validName_no_ws hB c (List.mem_of_mem_getLast? (by simp [hc]))

/-- Splitting a single valid name on whitespace yields that one token. -/
theorem splitWs_one {A : Name} (hA : validName A = true) : splitWs A = [A] := by
  unfold splitWs
  rw [splitP_nosep _ A (validName_no_ws hA)]
  simp [validName_ne_nil hA]

/-- Splitting `"A B"` on whitespace yields the two tokens. -/
theorem splitWs_two {A B : Name} (hA : validName A = true) (hB : validName B = true) :
    splitWs (A ++ ' ' :: B) = [A, B] := by
  unfold splitWs
  rw [splitP_append_nosep _ A _ (validName_no_ws hA)]
  have h1 : splitP isWs (' ' :: B) = [] :: splitP isWs B := by
    simp [splitP, isWs]
  rw [h1, splitP_nosep _ B (validName_no_ws hB)]
  simp [validName_ne_nil hA, validName_ne_nil hB]

/-- Splitting `"A B w"` on whitespace yields the three tokens (the third
need not be a valid name). -/
theorem splitWs_three {A B w : Name} (hA : validName A = true)
    (hB : validName B = true) (hw : w ≠ []) (hw2 : ∀ c ∈ w, isWs c = false) :
    splitWs (A ++ ' ' :: (B ++ ' ' :: w)) = [A, B, w] := by
  unfold splitWs
  rw [splitP_append_nosep _ A _ (validName_no_ws hA)]
  have h1 : ∀ t, splitP isWs (' ' :: t) = [] :: splitP isWs t := by
    intro t; simp [splitP, isWs]
  rw [h1, splitP_append_nosep _ B _ (validName_no_ws hB), h1,
    splitP_nosep _ w hw2]
  simp [validName_ne_nil hA, validName_ne_nil hB, hw]

/-! ## withIdx -/

theorem withIdx_append (n : Nat) (l₁ l₂ : List Name) :
    withIdx n (l₁ ++ l₂) = withIdx n l₁ ++ withIdx (n + l₁.length) l₂ := by
  induction l₁ generalizing n with
  | nil => simp [withIdx]
  | cons a t ih =>
    simp only [List.cons_append, withIdx, List.append_eq, ih (n + 1),
      List.length_cons, List.cons_append, List.cons_eq_cons, true_and]
    congr 2
    omega

theorem mem_withIdx {n : Nat} {l : List Name} {q : Nat × Name}
    (h : q ∈ withIdx n l) : n ≤ q.1 ∧ q.1 < n + l.length := by
  induction l generalizing n with
  | nil => simp [withIdx] at h
  | cons a t ih =>
    rcases List.mem_cons.mp h with rfl | h2
    · simp
    · have := ih h2
      simp only [List.length_cons]
      omega

/-! ## Injectivity of the canonical keys (separator splitting) -/

/-- Splitting a concatenation at a separator character that occurs in
neither left part is unambiguous. -/
theorem append_sep_inj_aux {sep : Char} : ∀ (a c : List Char), sep ∉ a → sep ∉ c →
    ∀ b d : List Char, a ++ sep :: b = c ++ sep :: d → a = c ∧ b = d
  | [], [] => fun _ _ b d h => ⟨rfl, by simpa using h⟩
  | [], x :: c' => fun _ hc b d h => by
    simp only [List.nil_append, List.cons_append, List.cons_eq_cons] at h
    exact absurd (by rw [h.1]; exact List.mem_cons_self x c') hc
  | y :: a', [] => fun ha _ b d h => by
    simp only [List.nil_append, List.cons_append, List.cons_eq_cons] at h
    exact absurd (by rw [← h.1]; exact List.mem_cons_self y a') ha
  | y :: a', x :: c' => fun ha hc b d h => by
    simp only [List.cons_append, List.cons_eq_cons] at h
    obtain ⟨rfl, h2⟩ := h
    have := append_sep_inj_aux a' c' (fun hm => ha (List.mem_cons_of_mem _ hm))
      (fun hm => hc (List.mem_cons_of_mem _ hm)) b d h2
    exact ⟨by rw [this.1], this.2⟩

theorem append_sep_inj {sep : Char} {a b c d : List Char}
    (ha : sep ∉ a) (hc : sep ∉ c) :
    a ++ sep :: b = c ++ sep :: d ↔ a = c ∧ b = d := by
  constructor
  · exact append_sep_inj_aux a c ha hc b d
  · rintro ⟨rfl, rfl⟩
    rfl

theorem validName_not_mem_dash {u : Name} (h : validName u = true) : '-' ∉ u :=
  fun hm => absurd (validName_mem h hm) (by decide)

/-- `"u->v"` determines `u` and `v` when both are valid names. -/
theorem dirKey_inj {u v x y : Name} (hu : validName u = true)
    (hx : validName x = true) :
    dirKey u v = dirKey x y ↔ u = x ∧ v = y := by
  unfold dirKey
  rw [append_sep_inj (validName_not_mem_dash hu) (validName_not_mem_dash hx)]
  simp

/-! ## The lexicographic order used by the JS two-element sort -/

theorem lexLe_total : ∀ a b : Name, lexLe a b = true ∨ lexLe b a = true
  | [], _ => Or.inl rfl
  | _ :: _, [] => Or.inr rfl
  | a :: as, b :: bs => by
    rcases Nat.lt_trichotomy a.toNat b.toNat with h | h | h
    · left; simp [lexLe, h]
    · have h1 : ¬ a.toNat < b.toNat := by omega
      have h2 : ¬ b.toNat < a.toNat := by omega
      rcases lexLe_total as bs with ih | ih
      · left; simp [lexLe, h1, h2, ih]
      · right; simp [lexLe, h1, h2, ih]
    · right; simp [lexLe, h]

theorem lexLe_antisymm : ∀ {a b : Name}, lexLe a b = true → lexLe b a = true → a = b
  | [], [], _, _ => rfl
  | [], _ :: _, _, h2 => by simp [lexLe] at h2
  | _ :: _, [], h1, _ => by simp [lexLe] at h1
  | a :: as, b :: bs, h1, h2 => by
    rcases Nat.lt_trichotomy a.toNat b.toNat with h | h | h
    · simp [lexLe, h, Nat.lt_asymm h] at h2
    · have hab : ¬ a.toNat < b.toNat := by omega
      have hba : ¬ b.toNat < a.toNat := by omega
      simp only [lexLe, hab, hba, if_false] at h1 h2
      have hc : a = b := Char.ext (UInt32.ext h)
      cases hc
      rw [lexLe_antisymm h1 h2]
    · simp [lexLe, h, Nat.lt_asymm h] at h1

theorem sortPair_comm (u v : Name) : sortPair u v = sortPair v u := by
  unfold sortPair
  by_cases h1 : lexLe u v = true
  · by_cases h2 : lexLe v u = true
    · rw [if_pos h1, if_pos h2, lexLe_antisymm h1 h2]
    · rw [if_pos h1, if_neg (by simp [h2])]
  · by_cases h2 : lexLe v u = true
    · rw [if_neg (by simp [h1]), if_pos h2]
    · rcases lexLe_total u v with h | h
      · exact absurd h h1
      · exact absurd h h2

theorem sortPair_cases (u v : Name) :
    sortPair u v = (u, v) ∨ sortPair u v = (v, u) := by
  unfold sortPair
  split
  · exact Or.inl rfl
  · exact Or.inr rfl

theorem sortPair_eq_iff {u v x y : Name} :
    sortPair u v = sortPair x y ↔ (u = x ∧ v = y) ∨ (u = y ∧ v = x) := by
  constructor
  · intro h
    rcases sortPair_cases u v with h1 | h1 <;> rcases sortPair_cases x y with h2 | h2 <;>
      · rw [h1, h2] at h
        simp only [Prod.mk.injEq] at h
        tauto
  · rintro (⟨rfl, rfl⟩ | ⟨rfl, rfl⟩)
    · rfl
    · exact sortPair_comm u v

theorem sortPair_fst_no_dash {u v : Name} (hu : validName u = true)
    (hv : validName v = true) : '-' ∉ (sortPair u v).1 := by
  rcases sortPair_cases u v with h | h <;> rw [h]
  · exact validName_not_mem_dash hu
  · exact validName_not_mem_dash hv

/-- `[u,v].sort().join('--')` determines the unordered pair `{u, v}` of
valid names. -/
theorem undirKey_inj {u v x y : Name} (hu : validName u = true)
    (hv : validName v = true) (hx : validName x = true) (hy : validName y = true) :
    undirKey u v = undirKey x y ↔ (u = x ∧ v = y) ∨ (u = y ∧ v = x) := by
  unfold undirKey
  rw [append_sep_inj (sortPair_fst_no_dash hu hv) (sortPair_fst_no_dash hx hy)]
  constructor
  · rintro ⟨ha, hb⟩
    simp only [List.cons_eq_cons, true_and] at hb
    have hp : sortPair u v = sortPair x y := by
      rcases sortPair_cases u v with h1 | h1 <;> rcases sortPair_cases x y with h2 | h2 <;>
        · rw [h1, h2] at ha hb ⊢
          dsimp only at ha hb
          rw [ha, hb]
    exact sortPair_eq_iff.mp hp
  · intro h
    rw [sortPair_eq_iff.mpr h]
    exact ⟨rfl, rfl⟩

/-- `[u,v].sort().join('-')` determines the unordered pair `{u, v}` of
valid names. -/
theorem diffKey_inj {u v x y : Name} (hu : validName u = true)
    (hv : validName v = true) (hx : validName x = true) (hy : validName y = true) :
    diffKey u v = diffKey x y ↔ (u = x ∧ v = y) ∨ (u = y ∧ v = x) := by
  unfold diffKey
  rw [append_sep_inj (sortPair_fst_no_dash hu hv) (sortPair_fst_no_dash hx hy)]
  constructor
  · rintro ⟨ha, hb⟩
    have hp : sortPair u v = sortPair x y := by
      rcases sortPair_cases u v with h1 | h1 <;> rcases sortPair_cases x y with h2 | h2 <;>
        · rw [h1, h2] at ha hb ⊢
          dsimp only at ha hb
          rw [ha, hb]
    exact sortPair_eq_iff.mp hp
  · intro h
    rw [sortPair_eq_iff.mpr h]
    exact ⟨rfl, rfl⟩

/-- C10: valid node identifiers match `^[A-Za-z0-9_]+$`, whose alphabet
excludes the separator characters of the canonical keys, so the directed
key `"u->v"` identifies the ordered pair, and the undirected key
`[u,v].sort().join('--')` and the structure-diff key
`[u,v].sort().join('-')` each identify the unordered pair; no two distinct
(ordered resp. unordered) pairs of valid nodes share a key. -/
theorem canonical_keys_injective {u v x y : Name} (hu : validName u = true)
    (hv : validName v = true) (hx : validName x = true) (hy : validName y = true) :
    (dirKey u v = dirKey x y ↔ (u = x ∧ v = y)) ∧
    (undirKey u v = undirKey x y ↔ (u = x ∧ v = y) ∨ (u = y ∧ v = x)) ∧
    (diffKey u v = diffKey x y ↔ (u = x ∧ v = y) ∨ (u = y ∧ v = x)) :=
  ⟨dirKey_inj hu hx, undirKey_inj hu hv hx hy, diffKey_inj hu hv hx hy⟩

/-- Witness for `canonical_keys_injective` at the concrete names
`A`, `B`, `A`, `Bc`. -/
theorem canonical_keys_injective_witness :
    validName (str "A") = true ∧ validName (str "B") = true ∧
    validName (str "Bc") = true ∧
    ((dirKey (str "A") (str "B") = dirKey (str "A") (str "Bc") ↔
        (str "A" = str "A" ∧ str "B" = str "Bc")) ∧
      (undirKey (str "A") (str "B") = undirKey (str "A") (str "Bc") ↔
        (str "A" = str "A" ∧ str "B" = str "Bc") ∨
        (str "A" = str "Bc" ∧ str "B" = str "A")) ∧
      (diffKey (str "A") (str "B") = diffKey (str "A") (str "Bc") ↔
        (str "A" = str "A" ∧ str "B" = str "Bc") ∨
        (str "A" = str "Bc" ∧ str "B" = str "A"))) :=
  ⟨by decide, by decide, by decide,
    canonical_keys_injective (by decide) (by decide) (by decide) (by decide)⟩

/-- C9: the structure-change comparison and the two parsers never mutate
the graph state: every branch of the state-passing translations returns
the incoming `graphState` unchanged (the previous cycle's
`currentNodes` / `currentLinks` are read-only inputs). -/
theorem pipeline_reads_only_graphState (newNodes : List NodeRec)
    (newLinks : List LinkRec) (ntext etext : Name) (vn : List Name)
    (gs : GraphState) :
    (isGraphStructureChangedS newNodes newLinks gs).2 = gs ∧
    (validateNodesS ntext gs).2 = gs ∧
    (validateGraphEdgesS etext vn gs).2 = gs := by
  refine ⟨?_, rfl, rfl⟩
  unfold isGraphStructureChangedS
  dsimp only
  split
  · rfl
  · split <;> rfl

/-! ## Round trip of the node parser (C8) -/

/-- JS `nodeIds.join('\n')`. -/
def joinNl : List Name → Name
  | [] => []
  | [x] => x
  | x :: y :: rest => x ++ '\n' :: joinNl (y :: rest)

theorem validName_isEmpty {s : Name} (h : validName s = true) :
    s.isEmpty = false := by
  unfold validName at h
  simp only [Bool.and_eq_true, Bool.not_eq_true'] at h
  exact h.1

theorem splitNl_joinNl : ∀ {ids : List Name}, ids ≠ [] →
    (∀ s ∈ ids, validName s = true) → splitNl (joinNl ids) = ids
  | [], h, _ => absurd rfl h
  | [x], _, hv => by
    unfold joinNl
    exact splitNl_single (validName_no_nl (hv x (by simp)))
  | x :: y :: rest, _, hv => by
    unfold joinNl
    rw [splitNl_append (validName_no_nl (hv x (by simp)))]
    rw [splitNl_joinNl (by simp) (fun s hs => hv s (List.mem_cons_of_mem x hs))]

theorem nodeStep_admit {done : List Name} {errs : List (ParseErr NodeReason)}
    {x : Name} (hx : validName x = true) (hmem : x ∉ done) (n : Nat) :
    nodeStep (done, errs) n x = (done ++ [x], errs) := by
  simp only [nodeStep, trim_name hx, validName_isEmpty hx, Bool.false_eq_true,
    if_false, hx, not_true, if_neg, not_false_eq_true, hmem]

theorem nodeFold_round : ∀ (rem : List Name) (done : List Name) (n : Nat),
    (done ++ rem).Nodup → (∀ x ∈ rem, validName x = true) →
    nodeFold (done, []) (withIdx n rem) = (done ++ rem, [])
  | [], done, n, _, _ => by simp [withIdx, nodeFold]
  | x :: rest, done, n, hnd, hv => by
    have hx : validName x = true := hv x (List.mem_cons_self x rest)
    have hmem : x ∉ done := by
      rw [List.nodup_append] at hnd
      exact fun hc => hnd.2.2 hc (List.mem_cons_self x rest)
    simp only [withIdx, nodeFold, nodeStep_admit hx hmem]
    have := nodeFold_round rest (done ++ [x]) (n + 1)
      (by simpa using hnd) (fun s hs => hv s (List.mem_cons_of_mem x hs))
    rw [this]
    simp

/-- C8: for every list of pairwise-distinct identifiers matching
`^[A-Za-z0-9_]+$`, parsing the text obtained by joining them with
newlines returns exactly that list as `validNodes`, in the same order,
with an empty error list. -/
theorem validateNodes_round_trip {ids : List Name} (hnd : ids.Nodup)
    (hv : ∀ x ∈ ids, validName x = true) :
    validateNodes (joinNl ids) = (ids, []) := by
  cases ids with
  | nil => rfl
  | cons x rest =>
    unfold validateNodes
    rw [splitNl_joinNl (by simp) hv]
    exact nodeFold_round (x :: rest) [] 0 (by simpa using hnd) hv

/-- Witness for `validateNodes_round_trip` on the identifier list
`[A, b_2]`. -/
theorem validateNodes_round_trip_witness :
    ([str "A", str "b_2"] : List Name).Nodup ∧
    (∀ x ∈ ([str "A", str "b_2"] : List Name), validName x = true) ∧
    validateNodes (joinNl [str "A", str "b_2"]) = ([str "A", str "b_2"], []) :=
  ⟨by decide, by decide, validateNodes_round_trip (by decide) (by decide)⟩

/-! ## Per-line behaviour of the edge parser -/

theorem append_cons_ne_nil {A B : Name} {c : Char} : A ++ c :: B ≠ [] := by
  intro h
  cases A <;> simp at h

theorem edgeStep_to_check2 {gs : GraphState} {vn : List Name} {acc : EdgeAcc}
    {i : Nat} {raw A B : Name} (htrim : trim raw = A ++ ' ' :: B)
    (hA : validName A = true) (hB : validName B = true) :
    edgeStep gs vn acc i raw = edgeCheck gs vn acc i [A, B] := by
  unfold edgeStep
  rw [htrim]
  dsimp only
  rw [if_neg (by simp [List.isEmpty_iff, append_cons_ne_nil])]
  rw [splitWs_two hA hB]
  cases hwt : gs.isWeighted <;> simp

theorem edgeStep_to_check3 {gs : GraphState} {vn : List Name} {acc : EdgeAcc}
    {i : Nat} {raw A B w : Name}
    (htrim : trim raw = A ++ ' ' :: (B ++ ' ' :: w))
    (hA : validName A = true) (hB : validName B = true)
    (hw : w ≠ []) (hw2 : ∀ c ∈ w, isWs c = false)
    (hwt : gs.isWeighted = true) :
    edgeStep gs vn acc i raw = edgeCheck gs vn acc i [A, B, w] := by
  unfold edgeStep
  rw [htrim]
  dsimp only
  rw [if_neg (by simp [List.isEmpty_iff, append_cons_ne_nil])]
  rw [splitWs_three hA hB hw hw2, hwt]
  simp

theorem edgeCheck_weight_nan {gs : GraphState} {vn : List Name} {acc : EdgeAcc}
    {i : Nat} {u v w : Name} (hu : validName u = true) (hv : validName v = true)
    (huvn : u ∈ vn) (hvvn : v ∈ vn) (hnan : jsNumber w = none) :
    edgeCheck gs vn acc i [u, v, w] =
      { acc with errs := acc.errs ++ [⟨i, .invalidWeight⟩] } := by
  unfold edgeCheck
  dsimp only [List.getD, List.get?]
  rw [if_neg (by simp [hu, hv]), if_neg (by simp [huvn, hvvn])]
  simp [hnan]

theorem edgeCheck_weight_num {gs : GraphState} {vn : List Name} {acc : EdgeAcc}
    {i : Nat} {u v w : Name} {q : ℚ} (hu : validName u = true)
    (hv : validName v = true) (huvn : u ∈ vn) (hvvn : v ∈ vn)
    (hq : jsNumber w = some q) :
    edgeCheck gs vn acc i [u, v, w] = edgeDup gs acc i u v q := by
  unfold edgeCheck
  dsimp only [List.getD, List.get?]
  rw [if_neg (by simp [hu, hv]), if_neg (by simp [huvn, hvvn])]
  simp [hq]

theorem edgeCheck_no_weight {gs : GraphState} {vn : List Name} {acc : EdgeAcc}
    {i : Nat} {u v : Name} (hu : validName u = true) (hv : validName v = true)
    (huvn : u ∈ vn) (hvvn : v ∈ vn) :
    edgeCheck gs vn acc i [u, v] = edgeDup gs acc i u v 1 := by
  unfold edgeCheck
  dsimp only [List.getD, List.get?]
  rw [if_neg (by simp [hu, hv]), if_neg (by simp [huvn, hvvn])]
  rfl

theorem edgeDup_dup {gs : GraphState} {acc : EdgeAcc} {i : Nat} {u v : Name}
    {wv : ℚ} (h : edgeKey gs.isDirected u v ∈ acc.seen) :
    edgeDup gs acc i u v wv = { acc with errs := acc.errs ++ [⟨i, .duplicate⟩] } := by
  unfold edgeDup
  rw [if_pos h]

theorem edgeDup_new {gs : GraphState} {acc : EdgeAcc} {i : Nat} {u v : Name}
    {wv : ℚ} (h : edgeKey gs.isDirected u v ∉ acc.seen) :
    edgeDup gs acc i u v wv =
      { acc with seen := acc.seen ++ [edgeKey gs.isDirected u v],
                 edges := acc.edges ++ [⟨u, v, wv⟩] } := by
  unfold edgeDup
  rw [if_neg h]

/-! ## Shape of the accumulator through the edge fold -/

theorem line_of_mem_single {R : Type} {i : Nat} {r : R} {e : ParseErr R}
    (he : e ∈ [(⟨i, r⟩ : ParseErr R)]) : e.line = i := by
  rw [List.mem_singleton.mp he]

theorem edgeStep_errs_shape (gs : GraphState) (vn : List Name) (acc : EdgeAcc)
    (i : Nat) (raw : Name) :
    ∃ t, (edgeStep gs vn acc i raw).errs = acc.errs ++ t ∧
      ∀ e ∈ t, e.line = i := by
  unfold edgeStep edgeCheck edgeDup
  dsimp only
  repeat' split
  all_goals first
    | exact ⟨[], (List.append_nil _).symm, fun e he => absurd he (List.not_mem_nil e)⟩
    | exact ⟨_, rfl, fun e he => line_of_mem_single he⟩

theorem edgeStep_seen_edges_ext (gs : GraphState) (vn : List Name) (acc : EdgeAcc)
    (i : Nat) (raw : Name) :
    ∃ s t, (edgeStep gs vn acc i raw).seen = acc.seen ++ s ∧
      (edgeStep gs vn acc i raw).edges = acc.edges ++ t := by
  unfold edgeStep edgeCheck edgeDup
  dsimp only
  repeat' split
  all_goals first
    | exact ⟨[], [], (List.append_nil _).symm, (List.append_nil _).symm⟩
    | exact ⟨_, _, rfl, rfl⟩

/-- Invariant: the `seenEdges` set is exactly the canonical keys of the
admitted edges, in order. -/
theorem edgeStep_key_inv {gs : GraphState} {vn : List Name} {acc : EdgeAcc}
    {i : Nat} {raw : Name}
    (h : acc.seen = acc.edges.map (fun e => edgeKey gs.isDirected e.src e.tgt)) :
    (edgeStep gs vn acc i raw).seen =
      (edgeStep gs vn acc i raw).edges.map
        (fun e => edgeKey gs.isDirected e.src e.tgt) := by
  unfold edgeStep edgeCheck edgeDup
  dsimp only
  repeat' split
  all_goals simp [h]

theorem edgeFold_append (gs : GraphState) (vn : List Name) (acc : EdgeAcc)
    (l₁ l₂ : List (Nat × Name)) :
    edgeFold gs vn acc (l₁ ++ l₂) = edgeFold gs vn (edgeFold gs vn acc l₁) l₂ := by
  induction l₁ generalizing acc with
  | nil => rfl
  | cons p rest ih => simp only [List.cons_append, edgeFold, List.append_eq, ih]

theorem edgeFold_errs_shape (gs : GraphState) (vn : List Name) :
    ∀ (pairs : List (Nat × Name)) (acc : EdgeAcc),
    ∃ t, (edgeFold gs vn acc pairs).errs = acc.errs ++ t ∧
      ∀ e ∈ t, ∃ q ∈ pairs, e.line = q.1
  | [], acc => ⟨[], by simp [edgeFold], by simp⟩
  | p :: rest, acc => by
    obtain ⟨t1, ht1, ht1l⟩ := edgeStep_errs_shape gs vn acc p.1 p.2
    obtain ⟨t2, ht2, ht2l⟩ := edgeFold_errs_shape gs vn rest (edgeStep gs vn acc p.1 p.2)
    refine ⟨t1 ++ t2, ?_, ?_⟩
    · simp only [edgeFold, ht2, ht1, List.append_assoc]
    · intro e he
      rcases List.mem_append.mp he with h | h
      · exact ⟨p, List.mem_cons_self p rest, ht1l e h⟩
      · obtain ⟨q, hq, hql⟩ := ht2l e h
        exact ⟨q, List.mem_cons_of_mem p hq, hql⟩

theorem edgeFold_seen_edges_ext (gs : GraphState) (vn : List Name) :
    ∀ (pairs : List (Nat × Name)) (acc : EdgeAcc),
    ∃ s t, (edgeFold gs vn acc pairs).seen = acc.seen ++ s ∧
      (edgeFold gs vn acc pairs).edges = acc.edges ++ t
  | [], acc => ⟨[], [], by simp [edgeFold], by simp [edgeFold]⟩
  | p :: rest, acc => by
    obtain ⟨s1, t1, hs1, ht1⟩ := edgeStep_seen_edges_ext gs vn acc p.1 p.2
    obtain ⟨s2, t2, hs2, ht2⟩ :=
      edgeFold_seen_edges_ext gs vn rest (edgeStep gs vn acc p.1 p.2)
    exact ⟨s1 ++ s2, t1 ++ t2, by simp [edgeFold, hs2, hs1],
      by simp [edgeFold, ht2, ht1]⟩

theorem edgeFold_key_inv (gs : GraphState) (vn : List Name) :
    ∀ (pairs : List (Nat × Name)) (acc : EdgeAcc),
    acc.seen = acc.edges.map (fun e => edgeKey gs.isDirected e.src e.tgt) →
    (edgeFold gs vn acc pairs).seen =
      (edgeFold gs vn acc pairs).edges.map
        (fun e => edgeKey gs.isDirected e.src e.tgt)
  | [], _, h => h
  | p :: rest, acc, h =>
    edgeFold_key_inv gs vn rest (edgeStep gs vn acc p.1 p.2) (edgeStep_key_inv h)

/-- The errors of a whole parse, filtered to the line at position
`pre.length`, are exactly the errors that the step for that line appends:
earlier lines report smaller indices, later lines larger ones. -/
theorem errs_filter_at (gs : GraphState) (vn : List Name) {text : Name}
    {pre suf : List Name} {raw : Name}
    (hsplit : splitNl text = pre ++ raw :: suf)
    {t1 : List (ParseErr EdgeReason)}
    (hstep : (edgeStep gs vn (edgeFold gs vn ⟨[], [], []⟩ (withIdx 0 pre))
        pre.length raw).errs =
      (edgeFold gs vn ⟨[], [], []⟩ (withIdx 0 pre)).errs ++ t1) :
    (validateGraphEdges text vn gs).2.filter (fun e => e.line == pre.length) = t1 := by
  have hfin : (validateGraphEdges text vn gs).2 =
      (edgeFold gs vn
        (edgeStep gs vn (edgeFold gs vn ⟨[], [], []⟩ (withIdx 0 pre)) pre.length raw)
        (withIdx (pre.length + 1) suf)).errs := by
    unfold validateGraphEdges
    rw [hsplit, withIdx_append, edgeFold_append]
    simp only [withIdx, Nat.zero_add, edgeFold]
  set acc1 := edgeFold gs vn ⟨[], [], []⟩ (withIdx 0 pre) with hacc1
  obtain ⟨t0, ht0, ht0l⟩ := edgeFold_errs_shape gs vn (withIdx 0 pre) ⟨[], [], []⟩
  obtain ⟨t1', ht1', ht1l⟩ :=
    edgeStep_errs_shape gs vn acc1 pre.length raw
  have htt : t1 = t1' := by
    rw [hstep] at ht1'
    exact List.append_cancel_left ht1'
  subst htt
  obtain ⟨t2, ht2, ht2l⟩ := edgeFold_errs_shape gs vn (withIdx (pre.length + 1) suf)
    (edgeStep gs vn acc1 pre.length raw)
  rw [hfin, ht2, hstep, ht0]
  have e0 : ∀ e ∈ t0, (e.line == pre.length) = false := by
    intro e he
    obtain ⟨q, hq, hql⟩ := ht0l e he
    have := mem_withIdx hq
    simp only [beq_eq_false_iff_ne, ne_eq, hql]
    omega
  have e2 : ∀ e ∈ t2, (e.line == pre.length) = false := by
    intro e he
    obtain ⟨q, hq, hql⟩ := ht2l e he
    have := mem_withIdx hq
    simp only [beq_eq_false_iff_ne, ne_eq, hql]
    omega
  have e1 : ∀ e ∈ t1, (e.line == pre.length) = true := by
    intro e he
    simp [ht1l e he]
  simp only [List.nil_append, List.filter_append]
  rw [List.filter_eq_nil_iff.mpr (by intro e he; simp [e0 e he]),
    List.filter_eq_self.mpr e1,
    List.filter_eq_nil_iff.mpr (by intro e he; simp [e2 e he])]
  simp

/-- C2 counterexample: in weighted mode with valid nodes `A`, `B` and edge
text `"A B 5\nA B x"`, line 1 violates both the duplicate rule (its
canonical key was seen when line 0 was admitted) and the weight rule
(`x` is not numeric), yet the single error reported for it is the
invalid-weight error, not the duplicate error: the source checks the
weight before the duplicate key. -/
theorem weight_before_duplicate_cex :
    edgeKey false (str "A") (str "B") ∈
      (edgeFold ⟨false, true, [], []⟩ [str "A", str "B"] ⟨[], [], []⟩
        (withIdx 0 [str "A B 5"])).seen ∧
    jsNumber (str "x") = none ∧
    (validateGraphEdges (str "A B 5\nA B x") [str "A", str "B"]
        ⟨false, true, [], []⟩).2 = [⟨1, .invalidWeight⟩] ∧
    ¬ (validateGraphEdges (str "A B 5\nA B x") [str "A", str "B"]
        ⟨false, true, [], []⟩).2 = [⟨1, .duplicate⟩] := by
  refine ⟨by decide, by decide, by decide, by decide⟩

/-- C2 (amended): for every weighted-mode edge line that violates both the
duplicate-edge rule and the weight rule, exactly one error is reported for
that line and it is the invalid-weight error: in the source's fixed check
order the weight-parse check runs before (and therefore outranks) the
duplicate check. -/
theorem weighted_dup_nan_line_reports_invalid_weight
    (gs : GraphState) (vn : List Name) (text : Name) (pre suf : List Name)
    (raw A B w : Name)
    (hwt : gs.isWeighted = true)
    (hsplit : splitNl text = pre ++ raw :: suf)
    (htrim : trim raw = A ++ ' ' :: (B ++ ' ' :: w))
    (hA : validName A = true) (hB : validName B = true)
    (hAvn : A ∈ vn) (hBvn : B ∈ vn)
    (hw : w ≠ []) (hw2 : ∀ c ∈ w, isWs c = false)
    (hnan : jsNumber w = none)
    (hdup : edgeKey gs.isDirected A B ∈
      (edgeFold gs vn ⟨[], [], []⟩ (withIdx 0 pre)).seen) :
    (validateGraphEdges text vn gs).2.filter (fun e => e.line == pre.length) =
      [⟨pre.length, .invalidWeight⟩] := by
  refine errs_filter_at gs vn hsplit ?_
  rw [edgeStep_to_check3 htrim hA hB hw hw2 hwt,
    edgeCheck_weight_nan hA hB hAvn hBvn hnan]

/-- Witness for `weighted_dup_nan_line_reports_invalid_weight` on the
edge text `"A B 5\nA B x"` (line 1 is both a duplicate of line 0's key and
carries the non-numeric weight `x`). -/
theorem weighted_dup_nan_witness :
    splitNl (str "A B 5\nA B x") = [str "A B 5"] ++ str "A B x" :: [] ∧
    trim (str "A B x") = str "A" ++ ' ' :: (str "B" ++ ' ' :: str "x") ∧
    jsNumber (str "x") = none ∧
    edgeKey false (str "A") (str "B") ∈
      (edgeFold ⟨false, true, [], []⟩ [str "A", str "B"] ⟨[], [], []⟩
        (withIdx 0 [str "A B 5"])).seen ∧
    (validateGraphEdges (str "A B 5\nA B x") [str "A", str "B"]
        ⟨false, true, [], []⟩).2.filter
        (fun e => e.line == ([str "A B 5"] : List Name).length) =
      [⟨([str "A B 5"] : List Name).length, .invalidWeight⟩] :=
  ⟨by decide, by decide, by decide, by decide,
    weighted_dup_nan_line_reports_invalid_weight ⟨false, true, [], []⟩
      [str "A", str "B"] (str "A B 5\nA B x") [str "A B 5"] [] (str "A B x")
      (str "A") (str "B") (str "x") rfl (by decide) (by decide) (by decide)
      (by decide) (by decide) (by decide) (by decide) (by decide) (by decide)
      (by decide)⟩

/-! ## Duplicate-edge keying on two-line inputs (C4) -/

theorem line2_no_nl {A B : Name} (hA : validName A = true)
    (hB : validName B = true) : ∀ c ∈ A ++ ' ' :: B, (c == '\n') = false := by
  intro c hc
  rcases List.mem_append.mp hc with h | h
  · exact validName_no_nl hA c h
  · rcases List.mem_cons.mp h with rfl | h
    · decide
    · exact validName_no_nl hB c h

/-- A two-line edge panel runs exactly two steps of the loop. -/
theorem validateGraphEdges_two (gs : GraphState) (vn : List Name)
    {l1 l2 : Name} (h1 : ∀ c ∈ l1, (c == '\n') = false)
    (h2 : ∀ c ∈ l2, (c == '\n') = false) :
    validateGraphEdges (l1 ++ '\n' :: l2) vn gs =
      ((edgeStep gs vn (edgeStep gs vn ⟨[], [], []⟩ 0 l1) 1 l2).edges,
       (edgeStep gs vn (edgeStep gs vn ⟨[], [], []⟩ 0 l1) 1 l2).errs) := by
  unfold validateGraphEdges
  rw [splitNl_append h1, splitNl_single h2]
  rfl

/-- The first well-formed unseen `"A B"` line is admitted. -/
theorem first_step_admit (gs : GraphState) (vn : List Name) {A B : Name}
    (hA : validName A = true) (hB : validName B = true)
    (hAvn : A ∈ vn) (hBvn : B ∈ vn) :
    edgeStep gs vn ⟨[], [], []⟩ 0 (A ++ ' ' :: B) =
      ⟨[edgeKey gs.isDirected A B], [⟨A, B, 1⟩], []⟩ := by
  rw [edgeStep_to_check2 (trim_two hA hB) hA hB,
    edgeCheck_no_weight hA hB hAvn hBvn, edgeDup_new (by simp)]
  simp

theorem undirKey_comm (u v : Name) : undirKey u v = undirKey v u := by
  unfold undirKey
  rw [sortPair_comm]

/-- C4: duplicate-edge detection keys each line by `"{source}->{target}"`
in directed mode and by the two names sorted in undirected mode: in
directed mode `"A B"` then `"A B"` yields one valid edge and one
DuplicateEdge error while `"A B"` then `"B A"` yields two valid edges;
in undirected mode `"A B"` then `"B A"` yields one valid edge and one
DuplicateEdge error; a repeated self-loop line is a duplicate in both
modes. -/
theorem duplicate_edge_keying (gs : GraphState) (vn : List Name) (A B : Name)
    (hA : validName A = true) (hB : validName B = true)
    (hAvn : A ∈ vn) (hBvn : B ∈ vn) (hne : A ≠ B) :
    (∀ u v : Name, edgeKey true u v = dirKey u v ∧
      edgeKey false u v = undirKey u v) ∧
    (gs.isDirected = true →
      validateGraphEdges ((A ++ ' ' :: B) ++ '\n' :: (A ++ ' ' :: B)) vn gs =
        ([⟨A, B, 1⟩], [⟨1, .duplicate⟩]) ∧
      validateGraphEdges ((A ++ ' ' :: B) ++ '\n' :: (B ++ ' ' :: A)) vn gs =
        ([⟨A, B, 1⟩, ⟨B, A, 1⟩], [])) ∧
    (gs.isDirected = false →
      validateGraphEdges ((A ++ ' ' :: B) ++ '\n' :: (B ++ ' ' :: A)) vn gs =
        ([⟨A, B, 1⟩], [⟨1, .duplicate⟩])) ∧
    validateGraphEdges ((A ++ ' ' :: A) ++ '\n' :: (A ++ ' ' :: A)) vn gs =
      ([⟨A, A, 1⟩], [⟨1, .duplicate⟩]) := by
  refine ⟨fun u v => ⟨rfl, rfl⟩, fun hdir => ⟨?_, ?_⟩, fun hdir => ?_, ?_⟩
  · rw [validateGraphEdges_two gs vn (line2_no_nl hA hB) (line2_no_nl hA hB),
      first_step_admit gs vn hA hB hAvn hBvn,
      edgeStep_to_check2 (trim_two hA hB) hA hB,
      edgeCheck_no_weight hA hB hAvn hBvn,
      edgeDup_dup (List.mem_singleton.mpr rfl)]
    simp
  · have hkey : edgeKey gs.isDirected B A ∉ [edgeKey gs.isDirected A B] := by
      rw [hdir]
      simp only [edgeKey, if_true, List.mem_singleton]
      intro hEq
      exact hne ((dirKey_inj hB hA).mp hEq).2
    rw [validateGraphEdges_two gs vn (line2_no_nl hA hB) (line2_no_nl hB hA),
      first_step_admit gs vn hA hB hAvn hBvn,
      edgeStep_to_check2 (trim_two hB hA) hB hA,
      edgeCheck_no_weight hB hA hBvn hAvn,
      edgeDup_new hkey]
    simp
  · have hkey : edgeKey gs.isDirected B A ∈ [edgeKey gs.isDirected A B] := by
      rw [hdir]
      simp only [edgeKey, Bool.false_eq_true, if_false, List.mem_singleton]
      exact undirKey_comm B A
    rw [validateGraphEdges_two gs vn (line2_no_nl hA hB) (line2_no_nl hB hA),
      first_step_admit gs vn hA hB hAvn hBvn,
      edgeStep_to_check2 (trim_two hB hA) hB hA,
      edgeCheck_no_weight hB hA hBvn hAvn,
      edgeDup_dup hkey]
    simp
  · rw [validateGraphEdges_two gs vn (line2_no_nl hA hA) (line2_no_nl hA hA),
      first_step_admit gs vn hA hA hAvn hAvn,
      edgeStep_to_check2 (trim_two hA hA) hA hA,
      edgeCheck_no_weight hA hA hAvn hAvn,
      edgeDup_dup (List.mem_singleton.mpr rfl)]
    simp

/-- Witness for `duplicate_edge_keying` with `A`, `B` valid nodes, in
both modes. -/
theorem duplicate_edge_keying_witness :
    validName (str "A") = true ∧ validName (str "B") = true ∧
    str "A" ≠ str "B" ∧
    (validateGraphEdges (str "A B\nA B") [str "A", str "B"]
        ⟨true, false, [], []⟩ =
      ([⟨str "A", str "B", 1⟩], [⟨1, .duplicate⟩])) ∧
    (validateGraphEdges (str "A B\nB A") [str "A", str "B"]
        ⟨true, false, [], []⟩ =
      ([⟨str "A", str "B", 1⟩, ⟨str "B", str "A", 1⟩], [])) ∧
    (validateGraphEdges (str "A B\nB A") [str "A", str "B"]
        ⟨false, false, [], []⟩ =
      ([⟨str "A", str "B", 1⟩], [⟨1, .duplicate⟩])) ∧
    (validateGraphEdges (str "A A\nA A") [str "A", str "B"]
        ⟨false, false, [], []⟩ =
      ([⟨str "A", str "A", 1⟩], [⟨1, .duplicate⟩])) := by
  have h1 := duplicate_edge_keying ⟨true, false, [], []⟩ [str "A", str "B"]
    (str "A") (str "B") (by decide) (by decide) (by decide) (by decide) (by decide)
  have h2 := duplicate_edge_keying ⟨false, false, [], []⟩ [str "A", str "B"]
    (str "A") (str "B") (by decide) (by decide) (by decide) (by decide) (by decide)
  refine ⟨by decide, by decide, by decide, ?_, ?_, ?_, ?_⟩
  · exact (h1.2.1 rfl).1
  · exact (h1.2.1 rfl).2
  · exact h2.2.2.1 rfl
  · exact h2.2.2.2

/-! ## Weight semantics in weighted mode (C7) -/

theorem markRev_proj (t s : Name) : ∀ l : List LinkRec,
    (markRev t s l).map (fun e => (e.source, e.target, e.value)) =
      l.map (fun e => (e.source, e.target, e.value))
  | [] => rfl
  | e :: rest => by
    unfold markRev
    split
    · simp
    · simp only [List.map_cons, markRev_proj t s rest]

theorem formatStep_proj (acc : List Name × List LinkRec) (e : Edge) :
    (formatStep acc e).2.map (fun l => (l.source, l.target, l.value)) =
      acc.2.map (fun l => (l.source, l.target, l.value)) ++ [(e.src, e.tgt, e.w)] := by
  unfold formatStep
  split
  · simp [markRev_proj]
  · simp

theorem formatFold_proj : ∀ (E : List Edge) (acc : List Name × List LinkRec),
    ((E.foldl formatStep acc).2).map (fun l => (l.source, l.target, l.value)) =
      acc.2.map (fun l => (l.source, l.target, l.value)) ++
        E.map (fun e => (e.src, e.tgt, e.w))
  | [], acc => by simp
  | e :: E', acc => by
    simp only [List.foldl_cons, formatFold_proj E' (formatStep acc e),
      formatStep_proj, List.map_cons, List.append_assoc, List.singleton_append]

/-- `formatEdges` preserves each edge's source, target and weight, in
order; only `curved` and `direction` are computed. -/
theorem formatEdges_proj (E : List Edge) :
    (formatEdges E).map (fun l => (l.source, l.target, l.value)) =
      E.map (fun e => (e.src, e.tgt, e.w)) := by
  unfold formatEdges
  rw [formatFold_proj]
  rfl

/-- C7: in weighted mode, for every otherwise-valid edge line, a numeric
third token becomes the admitted edge's weight and hence the LinkRecord's
`value` (`"A B 5"` yields one LinkRecord with `value = 5`), an absent
third token yields weight `1`, and a non-numeric third token yields zero
valid edges from that line and exactly one InvalidWeight error. -/
theorem weighted_value_semantics (gs : GraphState) (vn : List Name)
    (text : Name) (pre suf : List Name) (raw A B : Name)
    (hwt : gs.isWeighted = true)
    (hsplit : splitNl text = pre ++ raw :: suf)
    (hA : validName A = true) (hB : validName B = true)
    (hAvn : A ∈ vn) (hBvn : B ∈ vn) :
    (∀ w : Name, ∀ q : ℚ,
      trim raw = A ++ ' ' :: (B ++ ' ' :: w) → w ≠ [] →
      (∀ c ∈ w, isWs c = false) → jsNumber w = some q →
      edgeKey gs.isDirected A B ∉
        (edgeFold gs vn ⟨[], [], []⟩ (withIdx 0 pre)).seen →
      (⟨A, B, q⟩ : Edge) ∈ (validateGraphEdges text vn gs).1 ∧
      (A, B, q) ∈ (formatEdges (validateGraphEdges text vn gs).1).map
        (fun l => (l.source, l.target, l.value))) ∧
    (trim raw = A ++ ' ' :: B →
      edgeKey gs.isDirected A B ∉
        (edgeFold gs vn ⟨[], [], []⟩ (withIdx 0 pre)).seen →
      (⟨A, B, 1⟩ : Edge) ∈ (validateGraphEdges text vn gs).1) ∧
    (∀ w : Name,
      trim raw = A ++ ' ' :: (B ++ ' ' :: w) → w ≠ [] →
      (∀ c ∈ w, isWs c = false) → jsNumber w = none →
      (validateGraphEdges text vn gs).2.filter (fun e => e.line == pre.length) =
        [⟨pre.length, .invalidWeight⟩] ∧
      (edgeStep gs vn (edgeFold gs vn ⟨[], [], []⟩ (withIdx 0 pre))
          pre.length raw).edges =
        (edgeFold gs vn ⟨[], [], []⟩ (withIdx 0 pre)).edges) := by
  have hfin : ∀ acc2 : EdgeAcc,
      acc2 = edgeStep gs vn (edgeFold gs vn ⟨[], [], []⟩ (withIdx 0 pre))
        pre.length raw →
      (validateGraphEdges text vn gs).1 =
        (edgeFold gs vn acc2 (withIdx (pre.length + 1) suf)).edges := by
    intro acc2 h2
    unfold validateGraphEdges
    rw [hsplit, withIdx_append, edgeFold_append, h2]
    simp only [withIdx, Nat.zero_add, edgeFold]
  refine ⟨fun w q htrim hw hw2 hq hseen => ?_, fun htrim hseen => ?_,
    fun w htrim hw hw2 hq => ⟨?_, ?_⟩⟩
  · have hstep : edgeStep gs vn (edgeFold gs vn ⟨[], [], []⟩ (withIdx 0 pre))
        pre.length raw =
        { edgeFold gs vn ⟨[], [], []⟩ (withIdx 0 pre) with
          seen := (edgeFold gs vn ⟨[], [], []⟩ (withIdx 0 pre)).seen ++
            [edgeKey gs.isDirected A B],
          edges := (edgeFold gs vn ⟨[], [], []⟩ (withIdx 0 pre)).edges ++
            [⟨A, B, q⟩] } := by
      rw [edgeStep_to_check3 htrim hA hB hw hw2 hwt,
        edgeCheck_weight_num hA hB hAvn hBvn hq, edgeDup_new hseen]
    have hmem : (⟨A, B, q⟩ : Edge) ∈ (validateGraphEdges text vn gs).1 := by
      rw [hfin _ rfl]
      obtain ⟨s2, t2, _, ht2⟩ := edgeFold_seen_edges_ext gs vn
        (withIdx (pre.length + 1) suf)
        (edgeStep gs vn (edgeFold gs vn ⟨[], [], []⟩ (withIdx 0 pre)) pre.length raw)
      rw [ht2, hstep]
      simp
    refine ⟨hmem, ?_⟩
    rw [formatEdges_proj]
    exact List.mem_map.mpr ⟨⟨A, B, q⟩, hmem, rfl⟩
  · have hstep : edgeStep gs vn (edgeFold gs vn ⟨[], [], []⟩ (withIdx 0 pre))
        pre.length raw =
        { edgeFold gs vn ⟨[], [], []⟩ (withIdx 0 pre) with
          seen := (edgeFold gs vn ⟨[], [], []⟩ (withIdx 0 pre)).seen ++
            [edgeKey gs.isDirected A B],
          edges := (edgeFold gs vn ⟨[], [], []⟩ (withIdx 0 pre)).edges ++
            [⟨A, B, 1⟩] } := by
      rw [edgeStep_to_check2 htrim hA hB,
        edgeCheck_no_weight hA hB hAvn hBvn, edgeDup_new hseen]
    rw [hfin _ rfl]
    obtain ⟨s2, t2, _, ht2⟩ := edgeFold_seen_edges_ext gs vn
      (withIdx (pre.length + 1) suf)
      (edgeStep gs vn (edgeFold gs vn ⟨[], [], []⟩ (withIdx 0 pre)) pre.length raw)
    rw [ht2, hstep]
    simp
  · refine errs_filter_at gs vn hsplit ?_
    rw [edgeStep_to_check3 htrim hA hB hw hw2 hwt,
      edgeCheck_weight_nan hA hB hAvn hBvn hq]
  · rw [edgeStep_to_check3 htrim hA hB hw hw2 hwt,
      edgeCheck_weight_nan hA hB hAvn hBvn hq]

/-- Witness for `weighted_value_semantics`: weighted undirected mode,
edge panel `"A B 5"` (numeric weight admitted with value 5) and
`"A B x"` (zero edges, one InvalidWeight error). -/
theorem weighted_value_semantics_witness :
    ((⟨str "A", str "B", 5⟩ : Edge) ∈
        (validateGraphEdges (str "A B 5") [str "A", str "B"]
          ⟨false, true, [], []⟩).1 ∧
      (str "A", str "B", (5 : ℚ)) ∈
        (formatEdges (validateGraphEdges (str "A B 5") [str "A", str "B"]
            ⟨false, true, [], []⟩).1).map
          (fun l => (l.source, l.target, l.value))) ∧
    ((validateGraphEdges (str "A B x") [str "A", str "B"]
        ⟨false, true, [], []⟩).2.filter (fun e => e.line == (0 : Nat)) =
      [⟨0, .invalidWeight⟩]) ∧
    (validateGraphEdges (str "A B x") [str "A", str "B"]
        ⟨false, true, [], []⟩).1 = [] := by
  have h5 := weighted_value_semantics ⟨false, true, [], []⟩ [str "A", str "B"]
    (str "A B 5") [] [] (str "A B 5") (str "A") (str "B") rfl (by decide)
    (by decide) (by decide) (by decide) (by decide)
  have hx := weighted_value_semantics ⟨false, true, [], []⟩ [str "A", str "B"]
    (str "A B x") [] [] (str "A B x") (str "A") (str "B") rfl (by decide)
    (by decide) (by decide) (by decide) (by decide)
  refine ⟨?_, ?_, by decide⟩
  · exact h5.1 (str "5") 5 (by decide) (by decide) (by decide) (by decide)
      (by decide)
  · exact (hx.2.2 (str "x") (by decide) (by decide) (by decide) (by decide)).1

/-! ## The structure diff (C5) -/

theorem mkSet_go_mem : ∀ (l s : List Name) (x : Name),
    (x ∈ l.foldl (fun s x => if x ∈ s then s else s ++ [x]) s) ↔ x ∈ s ∨ x ∈ l
  | [], s, x => by simp
  | a :: l', s, x => by
    simp only [List.foldl_cons]
    rw [mkSet_go_mem l' _ x]
    split
    · constructor
      · rintro (h | h)
        · exact Or.inl h
        · exact Or.inr (List.mem_cons_of_mem a h)
      · rintro (h | h)
        · exact Or.inl h
        · rcases List.mem_cons.mp h with rfl | h
          · next hmem => exact Or.inl hmem
          · exact Or.inr h
    · simp only [List.mem_append, List.mem_singleton]
      constructor
      · rintro ((h | rfl) | h)
        · exact Or.inl h
        · exact Or.inr (List.mem_cons_self _ _)
        · exact Or.inr (List.mem_cons_of_mem a h)
      · rintro (h | h)
        · exact Or.inl (Or.inl h)
        · rcases List.mem_cons.mp h with rfl | h
          · exact Or.inl (Or.inr rfl)
          · exact Or.inr h

theorem mem_mkSet {l : List Name} {x : Name} : x ∈ mkSet l ↔ x ∈ l := by
  unfold mkSet
  rw [mkSet_go_mem]
  simp

theorem mkSet_go_nodup : ∀ (l s : List Name), s.Nodup →
    (l.foldl (fun s x => if x ∈ s then s else s ++ [x]) s).Nodup
  | [], _, hs => hs
  | a :: l', s, hs => by
    simp only [List.foldl_cons]
    split
    · exact mkSet_go_nodup l' s hs
    · next hmem =>
      refine mkSet_go_nodup l' _ ?_
      simp [List.nodup_append, hs, hmem]

theorem mkSet_nodup (l : List Name) : (mkSet l).Nodup :=
  mkSet_go_nodup l [] List.nodup_nil

/-- Two deduplicated lists of equal length, one containing the other,
have the same members. -/
theorem setEq_of_len_sub {o n : List Name} (ho : o.Nodup) (hn : n.Nodup)
    (hlen : o.length = n.length) (hsub : ∀ x ∈ n, x ∈ o) :
    ∀ x, x ∈ o ↔ x ∈ n := by
  have hfin : n.toFinset = o.toFinset := by
    refine Finset.eq_of_subset_of_card_le ?_ ?_
    · intro x hx
      exact List.mem_toFinset.mpr (hsub x (List.mem_toFinset.mp hx))
    · rw [List.toFinset_card_of_nodup ho, List.toFinset_card_of_nodup hn, hlen]
  intro x
  rw [← List.mem_toFinset, ← hfin, List.mem_toFinset]

/-- The boolean test of each half of `isGraphStructureChanged`
(size mismatch, or a new element outside the old set) is exactly set
inequality of the two deduplicated lists. -/
theorem setCheck_iff {o n : List Name} (ho : o.Nodup) (hn : n.Nodup) :
    (o.length ≠ n.length ∨ ∃ x ∈ n, x ∉ o) ↔ ¬ (∀ x, x ∈ o ↔ x ∈ n) := by
  constructor
  · rintro (h | ⟨x, hx, hnx⟩) heq
    · apply h
      have hf : o.toFinset = n.toFinset := by
        ext x
        simp only [List.mem_toFinset]
        exact heq x
      calc o.length = o.toFinset.card := (List.toFinset_card_of_nodup ho).symm
        _ = n.toFinset.card := by rw [hf]
        _ = n.length := List.toFinset_card_of_nodup hn
    · exact hnx ((heq x).mpr hx)
  · intro hne
    by_contra hcon
    push_neg at hcon
    obtain ⟨hlen, hsub⟩ := hcon
    exact hne (setEq_of_len_sub ho hn hlen hsub)

theorem diffKey_comm (u v : Name) : diffKey u v = diffKey v u := by
  unfold diffKey
  rw [sortPair_comm]

theorem pair_to_key {old new : List LinkRec}
    (h : ∀ a b, pairIn old a b → pairIn new a b) :
    ∀ k, (∃ l ∈ old, diffKey l.source l.target = k) →
      (∃ l ∈ new, diffKey l.source l.target = k) := by
  rintro k ⟨l, hl, rfl⟩
  obtain ⟨l', hl', hm⟩ := h l.source l.target ⟨l, hl, Or.inl ⟨rfl, rfl⟩⟩
  refine ⟨l', hl', ?_⟩
  rcases hm with ⟨h1, h2⟩ | ⟨h1, h2⟩
  · rw [h1, h2]
  · rw [h1, h2, diffKey_comm]

theorem key_to_pair {old new : List LinkRec}
    (hOld : ∀ l ∈ old, validName l.source = true ∧ validName l.target = true)
    (hNew : ∀ l ∈ new, validName l.source = true ∧ validName l.target = true)
    (hk : ∀ k, (∃ l ∈ old, diffKey l.source l.target = k) →
      (∃ l ∈ new, diffKey l.source l.target = k)) :
    ∀ a b, pairIn old a b → pairIn new a b := by
  rintro a b ⟨l, hl, hm⟩
  have hvl := hOld l hl
  have hkey : diffKey l.source l.target = diffKey a b := by
    rcases hm with ⟨rfl, rfl⟩ | ⟨rfl, rfl⟩
    · rfl
    · exact diffKey_comm _ _
  have hva : validName a = true ∧ validName b = true := by
    rcases hm with ⟨rfl, rfl⟩ | ⟨rfl, rfl⟩
    · exact hvl
    · exact ⟨hvl.2, hvl.1⟩
  obtain ⟨l', hl', hkey'⟩ := hk (diffKey a b) ⟨l, hl, hkey⟩
  have hvl' := hNew l' hl'
  have := (diffKey_inj hvl'.1 hvl'.2 hva.1 hva.2).mp hkey'
  exact ⟨l', hl', by tauto⟩

theorem keySet_iff_pairSet {old new : List LinkRec}
    (hOld : ∀ l ∈ old, validName l.source = true ∧ validName l.target = true)
    (hNew : ∀ l ∈ new, validName l.source = true ∧ validName l.target = true) :
    (∀ k, (∃ l ∈ old, diffKey l.source l.target = k) ↔
        (∃ l ∈ new, diffKey l.source l.target = k)) ↔
      (∀ a b, pairIn old a b ↔ pairIn new a b) := by
  constructor
  · intro hk a b
    exact ⟨key_to_pair hOld hNew (fun k => (hk k).mp) a b,
      key_to_pair hNew hOld (fun k => (hk k).mpr) a b⟩
  · intro hp k
    exact ⟨pair_to_key (fun a b => (hp a b).mp) k,
      pair_to_key (fun a b => (hp a b).mpr) k⟩

/-- C5: `structureChanged` is true iff the set of node ids differs from
the previous cycle's node-id set or the set of unordered
`{source, target}` pairs differs from the previous cycle's pairs; weights
and curvature play no role in the comparison, so two cycles with
identical topology but different weights or curvature report
`structureChanged = false`. -/
theorem structure_changed_iff (newNodes : List NodeRec) (newLinks : List LinkRec)
    (gs : GraphState)
    (hOldL : ∀ l ∈ gs.currentLinks, validName l.source = true ∧ validName l.target = true)
    (hNewL : ∀ l ∈ newLinks, validName l.source = true ∧ validName l.target = true) :
    isGraphStructureChanged newNodes newLinks gs = true ↔
      (¬ (∀ x, (∃ r ∈ gs.currentNodes, r.id = x) ↔ (∃ r ∈ newNodes, r.id = x)) ∨
       ¬ (∀ a b, pairIn gs.currentLinks a b ↔ pairIn newLinks a b)) := by
  have hA : ((mkSet (gs.currentNodes.map fun d => d.id)).length ≠
        (mkSet (newNodes.map fun d => d.id)).length ∨
      ∃ x ∈ mkSet (newNodes.map fun d => d.id),
        x ∉ mkSet (gs.currentNodes.map fun d => d.id)) ↔
      ¬ (∀ x, (∃ r ∈ gs.currentNodes, r.id = x) ↔ (∃ r ∈ newNodes, r.id = x)) := by
    rw [setCheck_iff (mkSet_nodup _) (mkSet_nodup _)]
    refine not_congr (forall_congr' fun x => iff_congr ?_ ?_) <;>
      · rw [mem_mkSet, List.mem_map]
  have hB : ((mkSet (gs.currentLinks.map fun d => diffKey d.source d.target)).length ≠
        (mkSet (newLinks.map fun d => diffKey d.source d.target)).length ∨
      ∃ k ∈ mkSet (newLinks.map fun d => diffKey d.source d.target),
        k ∉ mkSet (gs.currentLinks.map fun d => diffKey d.source d.target)) ↔
      ¬ (∀ a b, pairIn gs.currentLinks a b ↔ pairIn newLinks a b) := by
    rw [setCheck_iff (mkSet_nodup _) (mkSet_nodup _)]
    rw [← keySet_iff_pairSet hOldL hNewL]
    refine not_congr (forall_congr' fun k => iff_congr ?_ ?_) <;>
      · rw [mem_mkSet, List.mem_map]
  unfold isGraphStructureChanged isGraphStructureChangedS
  dsimp only
  split
  · next hcond1 => exact iff_of_true rfl (Or.inl (hA.mp hcond1))
  · next hcond1 =>
    split
    · next hcond2 => exact iff_of_true rfl (Or.inr (hB.mp hcond2))
    · next hcond2 =>
      refine iff_of_false (by simp) ?_
      rintro (hnA | hnB)
      · exact hcond1 (hA.mpr hnA)
      · exact hcond2 (hB.mpr hnB)

/-- Witness for `structure_changed_iff`: the previous cycle holds one link
`A → B` with weight 1, straight; the new cycle holds the reversed pair
`B → A` with weight 7, curved — identical topology, different weight and
curvature, and the comparison reports no structure change. -/
theorem structure_changed_iff_witness :
    (∀ l ∈ ([⟨str "A", str "B", 1, false, 0⟩] : List LinkRec),
      validName l.source = true ∧ validName l.target = true) ∧
    (∀ l ∈ ([⟨str "B", str "A", 7, true, 1⟩] : List LinkRec),
      validName l.source = true ∧ validName l.target = true) ∧
    (isGraphStructureChanged [⟨str "A", str "A"⟩, ⟨str "B", str "A"⟩]
        [⟨str "B", str "A", 7, true, 1⟩]
        ⟨false, true, [⟨str "A", str "A"⟩, ⟨str "B", str "A"⟩],
          [⟨str "A", str "B", 1, false, 0⟩]⟩ = true ↔
      (¬ (∀ x, (∃ r ∈ ([⟨str "A", str "A"⟩, ⟨str "B", str "A"⟩] : List NodeRec),
            r.id = x) ↔
          (∃ r ∈ ([⟨str "A", str "A"⟩, ⟨str "B", str "A"⟩] : List NodeRec),
            r.id = x)) ∨
       ¬ (∀ a b, pairIn [⟨str "A", str "B", 1, false, 0⟩] a b ↔
            pairIn [⟨str "B", str "A", 7, true, 1⟩] a b))) ∧
    isGraphStructureChanged [⟨str "A", str "A"⟩, ⟨str "B", str "A"⟩]
        [⟨str "B", str "A", 7, true, 1⟩]
        ⟨false, true, [⟨str "A", str "A"⟩, ⟨str "B", str "A"⟩],
          [⟨str "A", str "B", 1, false, 0⟩]⟩ = false :=
  ⟨by decide, by decide,
    structure_changed_iff [⟨str "A", str "A"⟩, ⟨str "B", str "A"⟩]
      [⟨str "B", str "A", 7, true, 1⟩]
      ⟨false, true, [⟨str "A", str "A"⟩, ⟨str "B", str "A"⟩],
        [⟨str "A", str "B", 1, false, 0⟩]⟩ (by decide) (by decide),
    by decide⟩

/-! ## Edge shaping (C6) -/

theorem shaped_src (b : List Edge) (e : Edge) (a : List Edge) :
    (shaped b e a).source = e.src := by
  unfold shaped
  split
  · rfl
  · split <;> rfl

theorem shaped_tgt (b : List Edge) (e : Edge) (a : List Edge) :
    (shaped b e a).target = e.tgt := by
  unfold shaped
  split
  · rfl
  · split <;> rfl

theorem markRev_no_match {t s : Name} : ∀ {l : List LinkRec},
    (∀ r ∈ l, ¬(r.source = t ∧ r.target = s)) → markRev t s l = l
  | [], _ => rfl
  | r :: rest, h => by
    unfold markRev
    rw [if_neg (h r (List.mem_cons_self r rest)),
      markRev_no_match (fun x hx => h x (List.mem_cons_of_mem _ hx))]

theorem mem_shapeWithin : ∀ {done P : List Edge} {r : LinkRec},
    r ∈ shapeWithin done P → ∃ f ∈ P, r.source = f.src ∧ r.target = f.tgt
  | _, [], r, h => by simp [shapeWithin] at h
  | done, e :: rest, r, h => by
    unfold shapeWithin at h
    rcases List.mem_cons.mp h with rfl | h2
    · exact ⟨e, List.mem_cons_self e rest, shaped_src done e rest,
        shaped_tgt done e rest⟩
    · obtain ⟨f, hf, h3⟩ := mem_shapeWithin h2
      exact ⟨f, List.mem_cons_of_mem _ hf, h3⟩

theorem nodup_pairs_split {l1 l2 : List Edge} {x : Edge}
    (hnd : ((l1 ++ x :: l2).map (fun f => (f.src, f.tgt))).Nodup)
    {g : Edge} (hg : g ∈ l1 ++ l2) (hp : g.src = x.src ∧ g.tgt = x.tgt) :
    False := by
  rw [List.map_append, List.map_cons, List.nodup_append] at hnd
  obtain ⟨h1, h2, hdisj⟩ := hnd
  have hgp : (g.src, g.tgt) = (x.src, x.tgt) := by
    rw [hp.1, hp.2]
  rcases List.mem_append.mp hg with h | h
  · exact hdisj (List.mem_map.mpr ⟨g, h, rfl⟩)
      (by rw [hgp]; exact List.mem_cons_self _ _)
  · have hc := List.nodup_cons.mp h2
    exact hc.1 (by rw [← hgp]; exact List.mem_map.mpr ⟨g, h, rfl⟩)

/-- Appending one edge to a pass: the new edge's record is appended, and
the (unique, if any) already-present exact reverse is retroactively
re-marked — exactly `markRev`. -/
theorem shapeWithin_snoc (e : Edge) : ∀ (P done : List Edge),
    (((done ++ P ++ [e]).map (fun f => (f.src, f.tgt))).Nodup) →
    shapeWithin done (P ++ [e]) =
      markRev e.tgt e.src (shapeWithin done P) ++ [shaped (done ++ P) e []]
  | [], done, _ => by
    simp [shapeWithin, markRev]
  | f :: P', done, hnd => by
    have hnd2 : (((done ++ [f]) ++ P' ++ [e]).map
        (fun f => (f.src, f.tgt))).Nodup := by
      simpa [List.append_assoc] using hnd
    have hndflat : ((done ++ f :: (P' ++ [e])).map
        (fun f => (f.src, f.tgt))).Nodup := by
      simpa [List.append_assoc] using hnd
    have hndlast : (((done ++ f :: P') ++ [e]).map
        (fun f => (f.src, f.tgt))).Nodup := by
      simpa [List.append_assoc] using hnd
    have ih := shapeWithin_snoc e P' (done ++ [f]) hnd2
    have hdf : (done ++ [f]) ++ P' = done ++ f :: P' := by
      simp
    show shaped done f (P' ++ [e]) :: shapeWithin (done ++ [f]) (P' ++ [e]) = _
    have hsw : shapeWithin done (f :: P') =
        shaped done f P' :: shapeWithin (done ++ [f]) P' := rfl
    rw [hsw]
    unfold markRev
    rw [shaped_src, shaped_tgt]
    by_cases hf : f.src = e.tgt ∧ f.tgt = e.src
    · rw [if_pos hf]
      have hC1 : ¬ ∃ g ∈ done, g.src = f.tgt ∧ g.tgt = f.src := by
        rintro ⟨g, hg, hgp⟩
        exact nodup_pairs_split hndlast
          (List.mem_append_left _ (List.mem_append_left _ hg))
          ⟨hgp.1.trans hf.2, hgp.2.trans hf.1⟩
      have hC2 : ¬ ∃ g ∈ P', g.src = f.tgt ∧ g.tgt = f.src := by
        rintro ⟨g, hg, hgp⟩
        exact nodup_pairs_split hndlast
          (List.mem_append_left _
            (List.mem_append_right _ (List.mem_cons_of_mem f hg)))
          ⟨hgp.1.trans hf.2, hgp.2.trans hf.1⟩
      have hstraight : shaped done f P' = ⟨f.src, f.tgt, f.w, false, 0⟩ := by
        unfold shaped
        rw [if_neg hC1, if_neg hC2]
      have hnew : shaped done f (P' ++ [e]) = ⟨f.src, f.tgt, f.w, true, -1⟩ := by
        unfold shaped
        rw [if_neg hC1,
          if_pos ⟨e, List.mem_append_right _ (List.mem_singleton.mpr rfl),
            hf.2.symm, hf.1.symm⟩]
      have htail : shapeWithin (done ++ [f]) (P' ++ [e]) =
          shapeWithin (done ++ [f]) P' ++ [shaped (done ++ f :: P') e []] := by
        rw [ih, hdf]
        congr 1
        refine markRev_no_match ?_
        intro r hr hmatch
        obtain ⟨g, hg, hgs, hgt⟩ := mem_shapeWithin hr
        refine nodup_pairs_split hndflat
          (List.mem_append_right _ (List.mem_append_left _ hg)) ?_
        exact ⟨(hgs.symm.trans hmatch.1).trans hf.1.symm,
          (hgt.symm.trans hmatch.2).trans hf.2.symm⟩
      rw [hnew, htail, hstraight]
      simp
    · rw [if_neg (by
        intro hc
        exact hf ⟨hc.1, hc.2⟩)]
      have hhead : shaped done f (P' ++ [e]) = shaped done f P' := by
        unfold shaped
        have hiff : (∃ g ∈ P' ++ [e], g.src = f.tgt ∧ g.tgt = f.src) ↔
            (∃ g ∈ P', g.src = f.tgt ∧ g.tgt = f.src) := by
          constructor
          · rintro ⟨g, hg, hgp⟩
            rcases List.mem_append.mp hg with h | h
            · exact ⟨g, h, hgp⟩
            · rw [List.mem_singleton.mp h] at hgp
              exact absurd ⟨hgp.2.symm, hgp.1.symm⟩ hf
          · rintro ⟨g, hg, hgp⟩
            exact ⟨g, List.mem_append_left _ hg, hgp⟩
        simp only [hiff]
      rw [hhead, ih, hdf]
      rfl

/-- One `formatEdges` step, starting from the invariant state of a
processed prefix `P`, produces the invariant state of `P ++ [e]`. -/
theorem formatStep_inv (P : List Edge) (e : Edge)
    (hval : ∀ f ∈ P ++ [e], validName f.src = true ∧ validName f.tgt = true)
    (hnd : ((P ++ [e]).map (fun f => (f.src, f.tgt))).Nodup) :
    formatStep (P.map (fun f => dirKey f.src f.tgt), shapeWithin [] P) e =
      ((P ++ [e]).map (fun f => dirKey f.src f.tgt), shapeWithin [] (P ++ [e])) := by
  have hnd0 : ((([] : List Edge) ++ P ++ [e]).map (fun f => (f.src, f.tgt))).Nodup := by
    simpa using hnd
  have hsnoc := shapeWithin_snoc e P [] hnd0
  have hve := hval e (List.mem_append_right _ (List.mem_singleton.mpr rfl))
  have hmem : (dirKey e.tgt e.src ∈ P.map (fun f => dirKey f.src f.tgt)) ↔
      ∃ f ∈ P, f.src = e.tgt ∧ f.tgt = e.src := by
    rw [List.mem_map]
    constructor
    · rintro ⟨f, hf, hkey⟩
      have hvf := hval f (List.mem_append_left _ hf)
      have := (dirKey_inj hvf.1 hve.2).mp hkey
      exact ⟨f, hf, this.1, this.2⟩
    · rintro ⟨f, hf, h1, h2⟩
      exact ⟨f, hf, by rw [h1, h2]⟩
  unfold formatStep
  split
  · next h =>
    have hsh : shaped ([] ++ P) e [] = ⟨e.src, e.tgt, e.w, true, 1⟩ := by
      unfold shaped
      rw [if_pos (by simpa using hmem.mp h)]
    rw [hsnoc, hsh, List.map_append]
    simp
  · next h =>
    have hnomatch : ∀ r ∈ shapeWithin ([] : List Edge) P,
        ¬(r.source = e.tgt ∧ r.target = e.src) := by
      intro r hr hm
      obtain ⟨g, hg, hgs, hgt⟩ := mem_shapeWithin hr
      exact h (hmem.mpr ⟨g, hg, hgs.symm.trans hm.1, hgt.symm.trans hm.2⟩)
    have hsh : shaped ([] ++ P) e [] = ⟨e.src, e.tgt, e.w, false, 0⟩ := by
      unfold shaped
      rw [if_neg (by simpa using fun hx => h (hmem.mpr hx)), if_neg (by simp)]
    rw [hsnoc, hsh, markRev_no_match hnomatch, List.map_append]
    simp

theorem formatFold_inv : ∀ (S P : List Edge),
    (∀ f ∈ P ++ S, validName f.src = true ∧ validName f.tgt = true) →
    (((P ++ S).map (fun f => (f.src, f.tgt))).Nodup) →
    S.foldl formatStep (P.map (fun f => dirKey f.src f.tgt), shapeWithin [] P) =
      ((P ++ S).map (fun f => dirKey f.src f.tgt), shapeWithin [] (P ++ S))
  | [], P, _, _ => by simp
  | e :: S', P, hval, hnd => by
    have hval1 : ∀ f ∈ P ++ [e], validName f.src = true ∧ validName f.tgt = true := by
      intro f hf
      apply hval
      rcases List.mem_append.mp hf with h | h
      · exact List.mem_append_left _ h
      · rw [List.mem_singleton.mp h]
        exact List.mem_append_right _ (List.mem_cons_self _ _)
    have hnd1 : ((P ++ [e]).map (fun f => (f.src, f.tgt))).Nodup := by
      refine List.Nodup.sublist ?_ hnd
      refine List.Sublist.map _ ?_
      exact (List.append_sublist_append_left P).mpr
        (List.Sublist.cons₂ e (List.nil_sublist S'))
    have hval' : ∀ f ∈ (P ++ [e]) ++ S',
        validName f.src = true ∧ validName f.tgt = true := by
      intro f hf
      apply hval
      simpa [List.append_assoc] using hf
    have hnd' : (((P ++ [e]) ++ S').map (fun f => (f.src, f.tgt))).Nodup := by
      simpa [List.append_assoc] using hnd
    rw [List.foldl_cons, formatStep_inv P e hval1 hnd1,
      formatFold_inv S' (P ++ [e]) hval' hnd']
    simp

theorem shapeWithin_length : ∀ (done P : List Edge),
    (shapeWithin done P).length = P.length
  | _, [] => rfl
  | done, e :: rest => by
    unfold shapeWithin
    simp [shapeWithin_length (done ++ [e]) rest]

theorem shapeWithin_get : ∀ (Q : List Edge) (f : Edge) (R done : List Edge),
    (shapeWithin done (Q ++ f :: R)).get? Q.length = some (shaped (done ++ Q) f R)
  | [], f, R, done => by simp [shapeWithin]
  | q :: Q', f, R, done => by
    unfold shapeWithin
    simp only [List.length_cons, List.cons_append, List.get?_cons_succ]
    rw [shapeWithin_get Q' f R (done ++ [q])]
    simp

/-- C6: for a pass of valid edges with pairwise-distinct ordered pairs,
an edge preceded by its exact reverse is emitted `curved = true`,
`direction = +1`; the earlier reverse ends up (retroactively)
`curved = true`, `direction = -1`; and every edge with no reverse in the
pass is emitted `curved = false`, `direction = 0`. -/
theorem edge_shaping (E : List Edge)
    (hval : ∀ f ∈ E, validName f.src = true ∧ validName f.tgt = true)
    (hnd : (E.map (fun f => (f.src, f.tgt))).Nodup) :
    (formatEdges E).length = E.length ∧
    ∀ P e S, E = P ++ e :: S →
      ((∃ f ∈ P, f.src = e.tgt ∧ f.tgt = e.src) →
        (formatEdges E).get? P.length = some ⟨e.src, e.tgt, e.w, true, 1⟩) ∧
      ((∃ f ∈ S, f.src = e.tgt ∧ f.tgt = e.src) →
        (formatEdges E).get? P.length = some ⟨e.src, e.tgt, e.w, true, -1⟩) ∧
      ((∀ f ∈ P ++ S, ¬(f.src = e.tgt ∧ f.tgt = e.src)) →
        (formatEdges E).get? P.length = some ⟨e.src, e.tgt, e.w, false, 0⟩) := by
  have hFE : formatEdges E = shapeWithin [] E := by
    unfold formatEdges
    have h := formatFold_inv E [] (by simpa using hval) (by simpa using hnd)
    simp only [List.nil_append, List.map_nil] at h
    have h0 : shapeWithin ([] : List Edge) [] = [] := rfl
    rw [h0] at h
    rw [h]
  constructor
  · rw [hFE, shapeWithin_length]
  · intro P e S hdecomp
    subst hdecomp
    have hget := shapeWithin_get P e S []
    simp only [List.nil_append] at hget
    refine ⟨fun hP => ?_, fun hS => ?_, fun hno => ?_⟩
    · rw [hFE, hget]
      unfold shaped
      rw [if_pos hP]
    · have hnP : ¬ ∃ f ∈ P, f.src = e.tgt ∧ f.tgt = e.src := by
        rintro ⟨f, hfP, hfp⟩
        obtain ⟨f', hf'S, hf'p⟩ := hS
        have hnd2 := hnd
        rw [List.map_append, List.map_cons, List.nodup_append] at hnd2
        refine hnd2.2.2 (List.mem_map.mpr ⟨f, hfP, rfl⟩)
          (List.mem_cons_of_mem _ (List.mem_map.mpr ⟨f', hf'S, ?_⟩))
        dsimp only
        rw [hfp.1, hfp.2, hf'p.1, hf'p.2]
      rw [hFE, hget]
      unfold shaped
      rw [if_neg hnP, if_pos hS]
    · rw [hFE, hget]
      unfold shaped
      rw [if_neg (by
          rintro ⟨f, hf, hp⟩
          exact hno f (List.mem_append_left _ hf) hp),
        if_neg (by
          rintro ⟨f, hf, hp⟩
          exact hno f (List.mem_append_right _ hf) hp)]

/-- Witness for `edge_shaping`: the pass `[(A,B), (B,A), (C,C)]` — the
anti-parallel pair becomes the curved pair with directions `-1` (earlier)
and `+1` (later), and the self-loop stays straight. -/
theorem edge_shaping_witness :
    (∀ f ∈ ([⟨str "A", str "B", 1⟩, ⟨str "B", str "A", 2⟩,
        ⟨str "C", str "C", 3⟩] : List Edge),
      validName f.src = true ∧ validName f.tgt = true) ∧
    (([⟨str "A", str "B", 1⟩, ⟨str "B", str "A", 2⟩,
        ⟨str "C", str "C", 3⟩] : List Edge).map
      (fun f => (f.src, f.tgt))).Nodup ∧
    (formatEdges [⟨str "A", str "B", 1⟩, ⟨str "B", str "A", 2⟩,
        ⟨str "C", str "C", 3⟩]).get? 0 =
      some ⟨str "A", str "B", 1, true, -1⟩ ∧
    (formatEdges [⟨str "A", str "B", 1⟩, ⟨str "B", str "A", 2⟩,
        ⟨str "C", str "C", 3⟩]).get? 1 =
      some ⟨str "B", str "A", 2, true, 1⟩ ∧
    (formatEdges [⟨str "A", str "B", 1⟩, ⟨str "B", str "A", 2⟩,
        ⟨str "C", str "C", 3⟩]).get? 2 =
      some ⟨str "C", str "C", 3, false, 0⟩ := by
  have h := edge_shaping
    [⟨str "A", str "B", 1⟩, ⟨str "B", str "A", 2⟩, ⟨str "C", str "C", 3⟩]
    (by decide) (by decide)
  refine ⟨by decide, by decide, ?_, ?_, ?_⟩
  · exact (h.2 [] ⟨str "A", str "B", 1⟩
      [⟨str "B", str "A", 2⟩, ⟨str "C", str "C", 3⟩] rfl).2.1 (by decide)
  · exact (h.2 [⟨str "A", str "B", 1⟩] ⟨str "B", str "A", 2⟩
      [⟨str "C", str "C", 3⟩] rfl).1 (by decide)
  · exact (h.2 [⟨str "A", str "B", 1⟩, ⟨str "B", str "A", 2⟩]
      ⟨str "C", str "C", 3⟩ [] rfl).2.2 (by decide)

/-! ## Undirected mode admits at most one edge per unordered pair (C1) -/

/-- Every step either leaves `seen`/`edges` unchanged, or admits exactly
one edge whose endpoints passed the name and existence checks and whose
key is fresh. -/
theorem edgeCheck_cases (gs : GraphState) (vn : List Name) (acc : EdgeAcc)
    (i : Nat) (parts : List Name) :
    ((edgeCheck gs vn acc i parts).edges = acc.edges ∧
      (edgeCheck gs vn acc i parts).seen = acc.seen) ∨
    (∃ u v wv, validName u = true ∧ validName v = true ∧ u ∈ vn ∧ v ∈ vn ∧
      edgeKey gs.isDirected u v ∉ acc.seen ∧
      (edgeCheck gs vn acc i parts).edges = acc.edges ++ [⟨u, v, wv⟩] ∧
      (edgeCheck gs vn acc i parts).seen =
        acc.seen ++ [edgeKey gs.isDirected u v]) := by
  unfold edgeCheck
  dsimp only
  split
  · exact Or.inl ⟨rfl, rfl⟩
  · next hname =>
    split
    · exact Or.inl ⟨rfl, rfl⟩
    · next hexist =>
      have hn := not_not.mp (by exact hname)
      have he := not_not.mp (by exact hexist)
      split
      · next wRaw hw =>
        split
        · exact Or.inl ⟨rfl, rfl⟩
        · next wv hwv =>
          unfold edgeDup
          dsimp only
          split
          · exact Or.inl ⟨rfl, rfl⟩
          · next hdup =>
            exact Or.inr ⟨_, _, wv, hn.1, hn.2, he.1, he.2, hdup, rfl, rfl⟩
      · next hw =>
        unfold edgeDup
        dsimp only
        split
        · exact Or.inl ⟨rfl, rfl⟩
        · next hdup =>
          exact Or.inr ⟨_, _, 1, hn.1, hn.2, he.1, he.2, hdup, rfl, rfl⟩

theorem edgeStep_cases (gs : GraphState) (vn : List Name) (acc : EdgeAcc)
    (i : Nat) (raw : Name) :
    ((edgeStep gs vn acc i raw).edges = acc.edges ∧
      (edgeStep gs vn acc i raw).seen = acc.seen) ∨
    (∃ u v wv, validName u = true ∧ validName v = true ∧ u ∈ vn ∧ v ∈ vn ∧
      edgeKey gs.isDirected u v ∉ acc.seen ∧
      (edgeStep gs vn acc i raw).edges = acc.edges ++ [⟨u, v, wv⟩] ∧
      (edgeStep gs vn acc i raw).seen =
        acc.seen ++ [edgeKey gs.isDirected u v]) := by
  unfold edgeStep
  dsimp only
  split
  · exact Or.inl ⟨rfl, rfl⟩
  · split
    · split
      · exact Or.inl ⟨rfl, rfl⟩
      · exact edgeCheck_cases gs vn acc i _
    · split
      · exact Or.inl ⟨rfl, rfl⟩
      · exact edgeCheck_cases gs vn acc i _

/-- Through the fold, every admitted edge has valid endpoint names that
are members of `validNodes`. -/
theorem edgeFold_edges_valid (gs : GraphState) (vn : List Name) :
    ∀ (pairs : List (Nat × Name)) (acc : EdgeAcc),
    (∀ e ∈ acc.edges, validName e.src = true ∧ validName e.tgt = true ∧
      e.src ∈ vn ∧ e.tgt ∈ vn) →
    ∀ e ∈ (edgeFold gs vn acc pairs).edges,
      validName e.src = true ∧ validName e.tgt = true ∧
      e.src ∈ vn ∧ e.tgt ∈ vn
  | [], _, hacc => hacc
  | p :: rest, acc, hacc => by
    refine edgeFold_edges_valid gs vn rest (edgeStep gs vn acc p.1 p.2) ?_
    rcases edgeStep_cases gs vn acc p.1 p.2 with ⟨he, _⟩ | ⟨u, v, wv, h1, h2, h3, h4, _, he, _⟩
    · rw [he]
      exact hacc
    · rw [he]
      intro e hm
      rcases List.mem_append.mp hm with hm | hm
      · exact hacc e hm
      · rw [List.mem_singleton.mp hm]
        exact ⟨h1, h2, h3, h4⟩

/-- Through the fold, the `seenEdges` list stays duplicate-free. -/
theorem edgeFold_seen_nodup (gs : GraphState) (vn : List Name) :
    ∀ (pairs : List (Nat × Name)) (acc : EdgeAcc),
    acc.seen.Nodup → (edgeFold gs vn acc pairs).seen.Nodup
  | [], _, hacc => hacc
  | p :: rest, acc, hacc => by
    refine edgeFold_seen_nodup gs vn rest (edgeStep gs vn acc p.1 p.2) ?_
    rcases edgeStep_cases gs vn acc p.1 p.2 with ⟨_, hs⟩ | ⟨u, v, wv, _, _, _, _, hdup, _, hs⟩
    · rw [hs]
      exact hacc
    · rw [hs]
      simp [List.nodup_append, hacc, hdup]

/-- A well-formed `"C D"` line forces its key into the `seen` set (either
it was already there and the line is a duplicate, or it is admitted). -/
theorem edgeStep_seen_key (gs : GraphState) (vn : List Name) (acc : EdgeAcc)
    (i : Nat) {raw C D : Name} (htrim : trim raw = C ++ ' ' :: D)
    (hC : validName C = true) (hD : validName D = true)
    (hCvn : C ∈ vn) (hDvn : D ∈ vn) :
    edgeKey gs.isDirected C D ∈ (edgeStep gs vn acc i raw).seen := by
  rw [edgeStep_to_check2 htrim hC hD, edgeCheck_no_weight hC hD hCvn hDvn]
  unfold edgeDup
  dsimp only
  split
  · next h => exact h
  · simp

/-- In a pass in which no two edges are mutual reverses, every record is
straight. -/
theorem shapeWithin_straight : ∀ (P done : List Edge),
    (done ++ P).Pairwise (fun f g => ¬(f.src = g.tgt ∧ f.tgt = g.src)) →
    shapeWithin done P = P.map (fun e => ⟨e.src, e.tgt, e.w, false, 0⟩)
  | [], _, _ => rfl
  | e :: rest, done, hpw => by
    unfold shapeWithin
    have hpa := List.pairwise_append.mp hpw
    have h1 : ¬ ∃ g ∈ done, g.src = e.tgt ∧ g.tgt = e.src := by
      rintro ⟨g, hg, hgp⟩
      exact hpa.2.2 g hg e (List.mem_cons_self _ _) hgp
    have h2 : ¬ ∃ g ∈ rest, g.src = e.tgt ∧ g.tgt = e.src := by
      rintro ⟨g, hg, hgp⟩
      exact (List.pairwise_cons.mp hpa.2.1).1 g hg ⟨hgp.2.symm, hgp.1.symm⟩
    have hsh : shaped done e rest = ⟨e.src, e.tgt, e.w, false, 0⟩ := by
      unfold shaped
      rw [if_neg h1, if_neg h2]
    rw [hsh, shapeWithin_straight rest (done ++ [e]) (by simpa using hpw)]
    rfl

theorem formatEdges_eq_shapeWithin (E : List Edge)
    (hval : ∀ f ∈ E, validName f.src = true ∧ validName f.tgt = true)
    (hnd : (E.map (fun f => (f.src, f.tgt))).Nodup) :
    formatEdges E = shapeWithin [] E := by
  unfold formatEdges
  have h := formatFold_inv E [] (by simpa using hval) (by simpa using hnd)
  simp only [List.nil_append, List.map_nil] at h
  have h0 : shapeWithin ([] : List Edge) [] = [] := rfl
  rw [h0] at h
  rw [h]

/-- A pass with pairwise-distinct undirected keys produces only straight
records. -/
theorem formatEdges_straight (E : List Edge)
    (hval : ∀ f ∈ E, validName f.src = true ∧ validName f.tgt = true)
    (hknd : (E.map (fun f => undirKey f.src f.tgt)).Nodup) :
    formatEdges E = E.map (fun e => ⟨e.src, e.tgt, e.w, false, 0⟩) := by
  have hkpw : E.Pairwise
      (fun f g => undirKey f.src f.tgt ≠ undirKey g.src g.tgt) :=
    List.pairwise_map.mp hknd
  have hpw : E.Pairwise (fun f g => ¬(f.src = g.tgt ∧ f.tgt = g.src)) := by
    refine hkpw.imp ?_
    intro f g hne hrev
    apply hne
    rw [hrev.1, hrev.2, undirKey_comm]
  have hndp : (E.map (fun f => (f.src, f.tgt))).Nodup := by
    have : E.Pairwise (fun f g => (f.src, f.tgt) ≠ (g.src, g.tgt)) := by
      refine hkpw.imp ?_
      intro f g hne hpair
      apply hne
      simp only [Prod.mk.injEq] at hpair
      rw [hpair.1, hpair.2]
    exact List.pairwise_map.mpr this
  rw [formatEdges_eq_shapeWithin E hval hndp]
  exact shapeWithin_straight E [] (by simpa using hpw)

theorem length_le_one_of_map_nodup_const {α β : Type} (f : α → β) (k : β) :
    ∀ {l : List α}, (l.map f).Nodup → (∀ x ∈ l, f x = k) → l.length ≤ 1
  | [], _, _ => by simp
  | [_], _, _ => by simp
  | x :: y :: _, hnd, hc => by
    exfalso
    rw [List.map_cons, List.map_cons, List.nodup_cons] at hnd
    refine hnd.1 ?_
    rw [hc x (List.mem_cons_self _ _),
      ← hc y (List.mem_cons_of_mem _ (List.mem_cons_self _ _))]
    exact List.mem_cons_self _ _

/-- C1 counterexample: undirected mode, nodes `A`, `B`, edge panel
`"A B\nB A"`: the second line is rejected as a duplicate, so the pipeline
produces exactly ONE LinkRecord between `A` and `B`, straight — not the
two curved LinkRecords the claim asserts. -/
theorem undirected_reverse_pair_cex :
    validateGraphEdges (str "A B\nB A") [str "A", str "B"]
        ⟨false, false, [], []⟩ =
      ([⟨str "A", str "B", 1⟩], [⟨1, .duplicate⟩]) ∧
    formatEdges (validateGraphEdges (str "A B\nB A") [str "A", str "B"]
        ⟨false, false, [], []⟩).1 =
      [⟨str "A", str "B", 1, false, 0⟩] ∧
    ¬ (formatEdges (validateGraphEdges (str "A B\nB A") [str "A", str "B"]
        ⟨false, false, [], []⟩).1).length = 2 :=
  ⟨by decide, by decide, by decide⟩

/-- C1 (amended): in undirected mode, for every input whose edge panel
contains both `"C D"` and `"D C"` as distinct non-blank lines (C, D
valid, distinct, existing nodes), the later of the two lines is reported
as a DuplicateEdge error, every produced LinkRecord is straight
(`curved = false`, `direction = 0`), and exactly one LinkRecord between
C and D is produced — not two curved ones. -/
theorem undirected_single_straight_link
    (gs : GraphState) (vn : List Name) (text : Name)
    (pre mid suf : List Name) (raw1 raw2 C D : Name)
    (hundir : gs.isDirected = false)
    (hsplit : splitNl text = pre ++ raw1 :: (mid ++ raw2 :: suf))
    (htrim1 : trim raw1 = C ++ ' ' :: D)
    (htrim2 : trim raw2 = D ++ ' ' :: C)
    (hC : validName C = true) (hD : validName D = true)
    (hCvn : C ∈ vn) (hDvn : D ∈ vn) (hne : C ≠ D) :
    (∀ l ∈ formatEdges (validateGraphEdges text vn gs).1,
        l.curved = false ∧ l.direction = 0) ∧
    (∃ s t w, ((s = C ∧ t = D) ∨ (s = D ∧ t = C)) ∧
      (formatEdges (validateGraphEdges text vn gs).1).filter
        (fun l => decide ((l.source = C ∧ l.target = D) ∨
          (l.source = D ∧ l.target = C))) = [⟨s, t, w, false, 0⟩]) ∧
    (validateGraphEdges text vn gs).2.filter
        (fun e => e.line == (pre ++ raw1 :: mid).length) =
      [⟨(pre ++ raw1 :: mid).length, .duplicate⟩] := by
  have hVE : validateGraphEdges text vn gs =
      ((edgeFold gs vn ⟨[], [], []⟩ (withIdx 0 (splitNl text))).edges,
       (edgeFold gs vn ⟨[], [], []⟩ (withIdx 0 (splitNl text))).errs) := rfl
  set accAll := edgeFold gs vn ⟨[], [], []⟩ (withIdx 0 (splitNl text)) with haccAll
  have hvalE := edgeFold_edges_valid gs vn (withIdx 0 (splitNl text)) ⟨[], [], []⟩
    (by intro e he; simp at he)
  have hkeyinv : accAll.seen =
      accAll.edges.map (fun e => edgeKey gs.isDirected e.src e.tgt) :=
    edgeFold_key_inv gs vn _ _ (by simp)
  have hnodupS : accAll.seen.Nodup := edgeFold_seen_nodup gs vn _ _ (by simp)
  have hkeyinv2 : accAll.seen =
      accAll.edges.map (fun e => undirKey e.src e.tgt) := by
    rw [hkeyinv]
    refine List.map_congr_left ?_
    intro e he
    simp [edgeKey, hundir]
  have hkndU : (accAll.edges.map (fun e => undirKey e.src e.tgt)).Nodup := by
    rw [← hkeyinv2]
    exact hnodupS
  have hstepkey := edgeStep_seen_key gs vn
    (edgeFold gs vn ⟨[], [], []⟩ (withIdx 0 pre)) pre.length htrim1 hC hD hCvn hDvn
  have hstepkeyU : undirKey C D ∈
      (edgeStep gs vn (edgeFold gs vn ⟨[], [], []⟩ (withIdx 0 pre))
        pre.length raw1).seen := by
    simpa [edgeKey, hundir] using hstepkey
  have hkeymem : undirKey C D ∈ accAll.seen := by
    rw [haccAll, hsplit, withIdx_append, edgeFold_append]
    simp only [withIdx, Nat.zero_add, edgeFold]
    obtain ⟨s2, t2, hs2, _⟩ := edgeFold_seen_edges_ext gs vn
      (withIdx (pre.length + 1) (mid ++ raw2 :: suf))
      (edgeStep gs vn (edgeFold gs vn ⟨[], [], []⟩ (withIdx 0 pre)) pre.length raw1)
    rw [hs2]
    exact List.mem_append_left _ hstepkeyU
  have hsplit2 : splitNl text = (pre ++ raw1 :: mid) ++ raw2 :: suf := by
    rw [hsplit]
    simp
  have hkeymem2 : undirKey C D ∈
      (edgeFold gs vn ⟨[], [], []⟩ (withIdx 0 (pre ++ raw1 :: mid))).seen := by
    rw [withIdx_append]
    simp only [withIdx, Nat.zero_add]
    rw [edgeFold_append]
    simp only [edgeFold]
    obtain ⟨s2, t2, hs2, _⟩ := edgeFold_seen_edges_ext gs vn
      (withIdx (pre.length + 1) mid)
      (edgeStep gs vn (edgeFold gs vn ⟨[], [], []⟩ (withIdx 0 pre)) pre.length raw1)
    rw [hs2]
    exact List.mem_append_left _ hstepkeyU
  have hmemDC : edgeKey gs.isDirected D C ∈
      (edgeFold gs vn ⟨[], [], []⟩ (withIdx 0 (pre ++ raw1 :: mid))).seen := by
    have hk : edgeKey gs.isDirected D C = undirKey C D := by
      simp [edgeKey, hundir, undirKey_comm D C]
    rw [hk]
    exact hkeymem2
  have hdupstep : (edgeStep gs vn
        (edgeFold gs vn ⟨[], [], []⟩ (withIdx 0 (pre ++ raw1 :: mid)))
        (pre ++ raw1 :: mid).length raw2).errs =
      (edgeFold gs vn ⟨[], [], []⟩ (withIdx 0 (pre ++ raw1 :: mid))).errs ++
        [⟨(pre ++ raw1 :: mid).length, .duplicate⟩] := by
    rw [edgeStep_to_check2 htrim2 hD hC, edgeCheck_no_weight hD hC hDvn hCvn,
      edgeDup_dup hmemDC]
  have hdups := errs_filter_at gs vn hsplit2 hdupstep
  have hvalE2 : ∀ f ∈ accAll.edges,
      validName f.src = true ∧ validName f.tgt = true :=
    fun f hf => ⟨(hvalE f hf).1, (hvalE f hf).2.1⟩
  have hstraight := formatEdges_straight accAll.edges hvalE2 hkndU
  refine ⟨?_, ?_, hdups⟩
  · rw [hVE]
    dsimp only
    rw [hstraight]
    intro l hl
    obtain ⟨e, he, rfl⟩ := List.mem_map.mp hl
    exact ⟨rfl, rfl⟩
  · have hexistsE : ∃ e ∈ accAll.edges, undirKey e.src e.tgt = undirKey C D := by
      have hm := hkeymem
      rw [hkeyinv2] at hm
      obtain ⟨e, he, hk⟩ := List.mem_map.mp hm
      exact ⟨e, he, hk⟩
    have hq_of_key : ∀ e ∈ accAll.edges, undirKey e.src e.tgt = undirKey C D →
        ((e.src = C ∧ e.tgt = D) ∨ (e.src = D ∧ e.tgt = C)) := by
      intro e he hk
      have hve := hvalE2 e he
      exact (undirKey_inj hve.1 hve.2 hC hD).mp hk
    have hkey_of_q : ∀ e : Edge,
        ((e.src = C ∧ e.tgt = D) ∨ (e.src = D ∧ e.tgt = C)) →
        undirKey e.src e.tgt = undirKey C D := by
      rintro e (⟨h1, h2⟩ | ⟨h1, h2⟩)
      · rw [h1, h2]
      · rw [h1, h2, undirKey_comm]
    have hmemF : ∃ e, e ∈ accAll.edges.filter
        (fun e => decide ((e.src = C ∧ e.tgt = D) ∨ (e.src = D ∧ e.tgt = C))) := by
      obtain ⟨e, he, hk⟩ := hexistsE
      exact ⟨e, List.mem_filter.mpr ⟨he, decide_eq_true (hq_of_key e he hk)⟩⟩
    have hle1 : (accAll.edges.filter
        (fun e => decide ((e.src = C ∧ e.tgt = D) ∨
          (e.src = D ∧ e.tgt = C)))).length ≤ 1 := by
      refine length_le_one_of_map_nodup_const
        (fun e => undirKey e.src e.tgt) (undirKey C D) ?_ ?_
      · exact List.Nodup.sublist (List.Sublist.map _ (List.filter_sublist _)) hkndU
      · intro e heF
        have hmf := List.mem_filter.mp heF
        exact hkey_of_q e (of_decide_eq_true hmf.2)
    obtain ⟨x, hxF⟩ := hmemF
    have hlen1 : (accAll.edges.filter
        (fun e => decide ((e.src = C ∧ e.tgt = D) ∨
          (e.src = D ∧ e.tgt = C)))).length = 1 := by
      have hpos : 0 < (accAll.edges.filter
          (fun e => decide ((e.src = C ∧ e.tgt = D) ∨
            (e.src = D ∧ e.tgt = C)))).length :=
        List.length_pos.mpr (by
          intro h
          rw [h] at hxF
          simp at hxF)
      omega
    obtain ⟨y, hy⟩ := List.length_eq_one.mp hlen1
    have hxy : x = y := by
      rw [hy] at hxF
      exact List.mem_singleton.mp hxF
    subst hxy
    have hxin := List.mem_filter.mp (hy ▸ List.mem_singleton.mpr rfl :
      x ∈ accAll.edges.filter (fun e => decide ((e.src = C ∧ e.tgt = D) ∨
        (e.src = D ∧ e.tgt = C))))
    refine ⟨x.src, x.tgt, x.w, of_decide_eq_true hxin.2, ?_⟩
    rw [hVE]
    dsimp only
    rw [hstraight, List.filter_map]
    have hcomp : ((fun l : LinkRec => decide ((l.source = C ∧ l.target = D) ∨
        (l.source = D ∧ l.target = C))) ∘
        (fun e : Edge => (⟨e.src, e.tgt, e.w, false, 0⟩ : LinkRec))) =
        fun e : Edge => decide ((e.src = C ∧ e.tgt = D) ∨
          (e.src = D ∧ e.tgt = C)) := rfl
    rw [hcomp, hy]
    rfl

/-- Witness for `undirected_single_straight_link`: undirected mode,
nodes `A`, `B`, edge panel `"A B\nB A"`. -/
theorem undirected_single_straight_link_witness :
    splitNl (str "A B\nB A") =
      ([] : List Name) ++ str "A B" :: (([] : List Name) ++ str "B A" :: []) ∧
    trim (str "A B") = str "A" ++ ' ' :: str "B" ∧
    trim (str "B A") = str "B" ++ ' ' :: str "A" ∧
    ((∀ l ∈ formatEdges (validateGraphEdges (str "A B\nB A")
        [str "A", str "B"] ⟨false, false, [], []⟩).1,
        l.curved = false ∧ l.direction = 0) ∧
      (∃ s t w, ((s = str "A" ∧ t = str "B") ∨ (s = str "B" ∧ t = str "A")) ∧
        (formatEdges (validateGraphEdges (str "A B\nB A")
            [str "A", str "B"] ⟨false, false, [], []⟩).1).filter
          (fun l => decide ((l.source = str "A" ∧ l.target = str "B") ∨
            (l.source = str "B" ∧ l.target = str "A"))) =
          [⟨s, t, w, false, 0⟩]) ∧
      (validateGraphEdges (str "A B\nB A") [str "A", str "B"]
          ⟨false, false, [], []⟩).2.filter
        (fun e => e.line ==
          (([] : List Name) ++ str "A B" :: ([] : List Name)).length) =
        [⟨(([] : List Name) ++ str "A B" :: ([] : List Name)).length,
          .duplicate⟩]) :=
  ⟨by decide, by decide, by decide,
    undirected_single_straight_link ⟨false, false, [], []⟩ [str "A", str "B"]
      (str "A B\nB A") [] [] [] (str "A B") (str "B A") (str "A") (str "B")
      rfl (by decide) (by decide) (by decide) (by decide) (by decide)
      (by decide) (by decide) (by decide)⟩

/-! ## DSU parent chains (C3): basic theory -/

theorem PChain.ne_nil {p : Name → Name} {x : Name} {m : List Name}
    (h : PChain p x m) : m ≠ [] := by
  cases h <;> simp

theorem PChain.head_eq {p : Name → Name} {x : Name} {m : List Name}
    (h : PChain p x m) : m.head? = some x := by
  cases h <;> rfl

theorem PChain.unique {p : Name → Name} : ∀ {x : Name} {m₁ m₂ : List Name},
    PChain p x m₁ → PChain p x m₂ → m₁ = m₂ := by
  intro x m₁ m₂ h1 h2
  induction h1 generalizing m₂ with
  | root u hu =>
    cases h2 with
    | root _ _ => rfl
    | step _ hne _ => exact absurd hu hne
  | step u hne htail ih =>
    cases h2 with
    | root _ hu => exact absurd hu hne
    | step _ _ htail2 => rw [ih htail2]

theorem getLast?_cons_of_ne_nil {u : Name} {l : List Name} (h : l ≠ []) :
    (u :: l).getLast? = l.getLast? := by
  cases l with
  | nil => exact absurd rfl h
  | cons a t => exact List.getLast?_cons_cons

theorem PChain.mem_chain {p : Name → Name} : ∀ {x : Name} {m : List Name},
    PChain p x m → ∀ y ∈ m, ∃ m₂, PChain p y m₂ ∧ m₂.getLast? = m.getLast? ∧
      m₂.length ≤ m.length ∧ (y ≠ x → m₂.length < m.length) := by
  intro x m h
  induction h with
  | root u hu =>
    intro y hy
    rw [List.mem_singleton.mp hy]
    exact ⟨[u], PChain.root u hu, rfl, le_refl _, fun hne => absurd rfl hne⟩
  | step u hne htail ih =>
    intro y hy
    rcases List.mem_cons.mp hy with rfl | hy2
    · exact ⟨_, PChain.step _ hne htail, rfl, le_refl _, fun hne2 => absurd rfl hne2⟩
    · obtain ⟨m₂, hm₂, hlast, hlen, _⟩ := ih y hy2
      refine ⟨m₂, hm₂, ?_, ?_, fun _ => ?_⟩
      · rw [hlast]
        exact (getLast?_cons_of_ne_nil htail.ne_nil).symm
      · simp only [List.length_cons]
        omega
      · simp only [List.length_cons]
        omega

theorem PChain.nodup {p : Name → Name} : ∀ {x : Name} {m : List Name},
    PChain p x m → m.Nodup := by
  intro x m h
  induction h with
  | root u _ => simp
  | step u hne htail ih =>
    refine List.nodup_cons.mpr ⟨?_, ih⟩
    intro hu
    obtain ⟨m₂, hm₂, _, hlen, _⟩ := htail.mem_chain u hu
    have hequ := PChain.unique hm₂ (PChain.step u hne htail)
    rw [hequ] at hlen
    simp only [List.length_cons] at hlen
    omega

theorem PChain.last_root {p : Name → Name} : ∀ {x : Name} {m : List Name},
    PChain p x m → ∀ {r}, m.getLast? = some r → p r = r := by
  intro x m h
  induction h with
  | root u hu =>
    intro r hr
    simp only [List.getLast?_singleton, Option.some_inj] at hr
    rw [← hr]
    exact hu
  | step u hne htail ih =>
    intro r hr
    rw [getLast?_cons_of_ne_nil htail.ne_nil] at hr
    exact ih hr

theorem Reaches.determ {p : Name → Name} {x r₁ r₂ : Name}
    (h1 : Reaches p x r₁) (h2 : Reaches p x r₂) : r₁ = r₂ := by
  obtain ⟨m₁, hm₁, hl₁⟩ := h1
  obtain ⟨m₂, hm₂, hl₂⟩ := h2
  rw [PChain.unique hm₁ hm₂] at hl₁
  rw [hl₁] at hl₂
  exact Option.some_inj.mp hl₂

theorem Reaches.of_root {p : Name → Name} {u : Name} (h : p u = u) :
    Reaches p u u :=
  ⟨[u], PChain.root u h, rfl⟩

theorem Reaches.of_step {p : Name → Name} {u r : Name} (hne : p u ≠ u)
    (h : Reaches p (p u) r) : Reaches p u r := by
  obtain ⟨m, hm, hl⟩ := h
  exact ⟨u :: m, PChain.step u hne hm,
    by rw [getLast?_cons_of_ne_nil hm.ne_nil]; exact hl⟩

/-- A root occurring in a chain is the chain's last element. -/
theorem PChain.root_mem_last {p : Name → Name} {x : Name} {m : List Name}
    (h : PChain p x m) {y : Name} (hy : y ∈ m) (hroot : p y = y) :
    m.getLast? = some y := by
  obtain ⟨m₂, hm₂, hlast, _, _⟩ := h.mem_chain y hy
  rw [PChain.unique hm₂ (PChain.root y hroot)] at hlast
  rw [← hlast]
  rfl

/-- Members of a chain reach the chain's endpoint. -/
theorem PChain.mem_reaches {p : Name → Name} {x : Name} {m : List Name}
    (h : PChain p x m) {y r : Name} (hy : y ∈ m) (hr : m.getLast? = some r) :
    Reaches p y r := by
  obtain ⟨m₂, hm₂, hlast, _, _⟩ := h.mem_chain y hy
  exact ⟨m₂, hm₂, by rw [hlast]; exact hr⟩

/-- A chain whose parents agree pointwise is a chain for the other map. -/
theorem PChain.congr {p p2 : Name → Name} : ∀ {x : Name} {m : List Name},
    PChain p x m → (∀ y ∈ m, p2 y = p y) → PChain p2 x m := by
  intro x m h
  induction h with
  | root u hu =>
    intro hag
    refine PChain.root u ?_
    rw [hag u (List.mem_singleton.mpr rfl), hu]
  | step u hne htail ih =>
    intro hag
    have hu2 : p2 u = p u := hag u (List.mem_cons_self _ _)
    refine PChain.step u (by rw [hu2]; exact hne) ?_
    rw [hu2]
    exact ih (fun y hy => hag y (List.mem_cons_of_mem _ hy))

/-- Redirecting a chain member `u` straight to a root `r` (with everything
before `u` untouched) yields the chain `pre ++ [u, r]`. -/
theorem PChain.redirect {p p2 : Name → Name} {u r : Name}
    (hagree : ∀ y, y ≠ u → p2 y = p y)
    (hpu : p2 u = r) (hru : r ≠ u) (hpr : p2 r = r) :
    ∀ {pre : List Name} {x : Name} {suf : List Name},
    PChain p x (pre ++ u :: suf) → u ∉ pre →
    PChain p2 x (pre ++ [u, r]) := by
  intro pre
  induction pre with
  | nil =>
    intro x suf h hu
    have hx : x = u := by
      have := h.head_eq
      simpa using this.symm
    subst hx
    refine PChain.step x (by rw [hpu]; exact hru) ?_
    rw [hpu]
    exact PChain.root r hpr
  | cons a pre' ih =>
    intro x suf h hu
    have hx : x = a := by
      have := h.head_eq
      simpa using this.symm
    subst hx
    obtain ⟨b, L2, hbl⟩ : ∃ b L2, pre' ++ u :: suf = b :: L2 := by
      cases pre' with
      | nil => exact ⟨u, suf, rfl⟩
      | cons c t => exact ⟨c, t ++ u :: suf, by simp⟩
    rw [List.cons_append, hbl] at h
    cases h with
    | step _ hne htail =>
      rw [← hbl] at htail
      have hax : x ≠ u := fun he => hu (by rw [← he]; exact List.mem_cons_self _ _)
      refine PChain.step x (by rw [hagree x hax]; exact hne) ?_
      rw [hagree x hax]
      exact ih htail (fun hm => hu (List.mem_cons_of_mem _ hm))

/-- Updating a node to point directly at its own root preserves every
`Reaches` fact. -/
theorem Reaches.update {p : Name → Name} {u r : Name} (hur : Reaches p u r) :
    ∀ {x w : Name}, Reaches p x w → Reaches (Function.update p u r) x w := by
  intro x w hxw
  by_cases hru : p u = u
  · have hr : r = u := Reaches.determ hur (Reaches.of_root hru)
    subst hr
    have h2 : Function.update p r r = p := by
      nth_rewrite 2 [← hru]
      exact Function.update_eq_self r p
    rw [h2]
    exact hxw
  · have hpr : p r = r := by
      obtain ⟨m0, hm0, hl0⟩ := hur
      exact hm0.last_root hl0
    have hrne : r ≠ u := by
      intro he
      subst he
      exact hru hpr
    obtain ⟨m, hm, hl⟩ := hxw
    by_cases hum : u ∈ m
    · have hw : w = r := by
        have h1 : Reaches p u w := hm.mem_reaches hum hl
        exact Reaches.determ h1 hur
      rw [hw]
      obtain ⟨pre, suf, hsplit⟩ := List.append_of_mem hum
      have hnd := hm.nodup
      have hupre : u ∉ pre := by
        rw [hsplit, List.nodup_append] at hnd
        intro hp
        exact hnd.2.2 hp (List.mem_cons_self _ _)
      have hch : PChain (Function.update p u r) x (pre ++ [u, r]) :=
        PChain.redirect
          (fun y hy => Function.update_noteq hy r p)
          (Function.update_same u r p) hrne
          (by rw [Function.update_noteq hrne r p]; exact hpr)
          (hsplit ▸ hm) hupre
      refine ⟨pre ++ [u, r], hch, ?_⟩
      have hlast : (pre ++ [u, r]).getLast? = ([u, r] : List Name).getLast? :=
        List.getLast?_append_of_ne_nil pre (by simp)
      rw [hlast]
      rfl
    · refine ⟨m, hm.congr (fun y hy => ?_), hl⟩
      have hyu : y ≠ u := fun he => hum (he ▸ hy)
      exact Function.update_noteq hyu r p

theorem PChain.subset_of_closed {V : List Name} {p : Name → Name}
    (hc : ∀ u, u ∈ V → p u ∈ V) : ∀ {x : Name} {m : List Name},
    PChain p x m → x ∈ V → ∀ y ∈ m, y ∈ V := by
  intro x m h
  induction h with
  | root u _ =>
    intro hx y hy
    rw [List.mem_singleton.mp hy]
    exact hx
  | step u hne htail ih =>
    intro hx y hy
    rcases List.mem_cons.mp hy with hEq | hy2
    · rw [hEq]
      exact hx
    · exact ih (hc u hx) y hy2

theorem ParentInv.chain_all {V : List Name} {p : Name → Name}
    (hInv : ParentInv V p) (u : Name) :
    ∃ m, PChain p u m ∧ m.length ≤ V.length + 1 := by
  by_cases hu : u ∈ V
  · obtain ⟨m, hm⟩ := hInv.terminates u hu
    refine ⟨m, hm, ?_⟩
    have hle := (List.subperm_of_subset hm.nodup
      (fun y hy => PChain.subset_of_closed hInv.closed hm hu y hy)).length_le
    omega
  · exact ⟨[u], PChain.root u (hInv.outside u hu), by simp⟩

theorem ParentInv.reaches_total {V : List Name} {p : Name → Name}
    (hInv : ParentInv V p) (u : Name) : ∃ r, Reaches p u r := by
  obtain ⟨m, hm, _⟩ := hInv.chain_all u
  obtain ⟨r, hr⟩ : ∃ r, m.getLast? = some r := by
    cases m with
    | nil => exact absurd rfl hm.ne_nil
    | cons a t => exact ⟨_, List.getLast?_eq_getLast (a :: t) (by simp)⟩
  exact ⟨r, m, hm, hr⟩

/-- Full specification of the path-compressing `find`: it returns the
root of its argument and preserves every root. -/
theorem findD_spec : ∀ (fuel : Nat) (p : Name → Name) (u : Name) (m : List Name),
    PChain p u m → m.length ≤ fuel →
    Reaches p u (findD fuel p u).1 ∧
    (∀ x w, Reaches p x w → Reaches (findD fuel p u).2 x w) ∧
    (∀ y, (findD fuel p u).2 y = p y ∨
      (y ∈ m ∧ (findD fuel p u).2 y = (findD fuel p u).1))
  | 0, p, u, m, hm, hlen => by
    exfalso
    cases m with
    | nil => exact hm.ne_nil rfl
    | cons a t => simp at hlen
  | fuel + 1, p, u, m, hm, hlen => by
    by_cases hpu : p u = u
    · rw [show findD (fuel + 1) p u = (u, p) from by simp [findD, hpu]]
      exact ⟨Reaches.of_root hpu, fun x w h => h, fun y => Or.inl rfl⟩
    · have hstep : findD (fuel + 1) p u =
          ((findD fuel p (p u)).1,
            Function.update (findD fuel p (p u)).2 u (findD fuel p (p u)).1) := by
        simp [findD, hpu]
      cases hm with
      | root _ h0 => exact absurd h0 hpu
      | step _ _ htail =>
        rename_i l hne2
        have hlen2 : l.length ≤ fuel := by
          simp only [List.length_cons] at hlen
          omega
        obtain ⟨ha, hb, hc⟩ := findD_spec fuel p (p u) l htail hlen2
        have haU : Reaches p u (findD fuel p (p u)).1 := Reaches.of_step hpu ha
        rw [hstep]
        dsimp only
        refine ⟨haU, ?_, ?_⟩
        · intro x w hxw
          exact Reaches.update (hb u _ haU) (hb x w hxw)
        · intro y
          by_cases hyu : y = u
          · subst hyu
            exact Or.inr ⟨List.mem_cons_self _ _, Function.update_same _ _ _⟩
          · rcases hc y with h | ⟨hy, h⟩
            · left
              rw [Function.update_noteq hyu, h]
            · right
              exact ⟨List.mem_cons_of_mem _ hy,
                by rw [Function.update_noteq hyu, h]⟩

/-- `find` under the invariant: root of `u`, invariant preserved, and the
`Reaches` relation unchanged. -/
theorem findD_full {V : List Name} {p : Name → Name} {u : Name} {fuel : Nat}
    (hInv : ParentInv V p) (hu : u ∈ V) (hfuel : V.length + 1 ≤ fuel) :
    Reaches p u (findD fuel p u).1 ∧
    ParentInv V (findD fuel p u).2 ∧
    (∀ x w, Reaches (findD fuel p u).2 x w ↔ Reaches p x w) := by
  obtain ⟨m, hm, hmlen⟩ := hInv.chain_all u
  obtain ⟨ha, hb, hc⟩ := findD_spec fuel p u m hm (le_trans hmlen hfuel)
  have hiff : ∀ x w, Reaches (findD fuel p u).2 x w ↔ Reaches p x w := by
    intro x w
    constructor
    · intro h2
      obtain ⟨w0, hw0⟩ := hInv.reaches_total x
      rw [Reaches.determ h2 (hb x w0 hw0)]
      exact hw0
    · exact hb x w
  have hrootV : (findD fuel p u).1 ∈ V := by
    obtain ⟨m0, hm0, hl0⟩ := ha
    rw [PChain.unique hm0 hm] at hl0
    exact PChain.subset_of_closed hInv.closed hm hu _
      (List.mem_of_mem_getLast? (by simp [hl0]))
  refine ⟨ha, ⟨?_, ?_, ?_⟩, hiff⟩
  · intro y hy
    rcases hc y with h | ⟨_, h⟩
    · rw [h]
      exact hInv.closed y hy
    · rw [h]
      exact hrootV
  · intro y hy
    rcases hc y with h | ⟨hym, _⟩
    · rw [h]
      exact hInv.outside y hy
    · exact absurd (PChain.subset_of_closed hInv.closed hm hu y hym) hy
  · intro y hy
    obtain ⟨w0, hw0⟩ := hInv.reaches_total y
    obtain ⟨m2, hm2, _⟩ := hb y w0 hw0
    exact ⟨m2, hm2⟩

theorem Reaches.self_root {p : Name → Name} {y : Name}
    (h : Reaches p y y) : p y = y := by
  obtain ⟨m, hm, hl⟩ := h
  cases hm with
  | root _ h0 => exact h0
  | step _ hne htail =>
    exfalso
    rename_i l
    rw [getLast?_cons_of_ne_nil htail.ne_nil] at hl
    have hmem : y ∈ l := List.mem_of_mem_getLast? (by simp [hl])
    have hnd := (PChain.step y hne htail).nodup
    rw [List.nodup_cons] at hnd
    exact hnd.1 hmem

theorem SameRoot.symm {p : Name → Name} {a b : Name}
    (h : SameRoot p a b) : SameRoot p b a := by
  obtain ⟨r, h1, h2⟩ := h
  exact ⟨r, h2, h1⟩

theorem SameRoot.trans {p : Name → Name} {a b c : Name}
    (h1 : SameRoot p a b) (h2 : SameRoot p b c) : SameRoot p a c := by
  obtain ⟨r, ha, hb⟩ := h1
  obtain ⟨s, hb2, hc⟩ := h2
  rw [Reaches.determ hb2 hb] at hc
  exact ⟨r, ha, hc⟩

theorem sameRoot_iff_reaches {p : Name → Name} {u ru : Name}
    (hur : Reaches p u ru) : ∀ a, SameRoot p a u ↔ Reaches p a ru := by
  intro a
  constructor
  · rintro ⟨r, ha, hu2⟩
    rw [Reaches.determ hu2 hur] at ha
    exact ha
  · intro h
    exact ⟨ru, h, hur⟩

theorem ParentInv.root_mem {V : List Name} {p : Name → Name} {u r : Name}
    (hInv : ParentInv V p) (hu : u ∈ V) (h : Reaches p u r) : r ∈ V := by
  obtain ⟨m, hm, hl⟩ := h
  exact PChain.subset_of_closed hInv.closed hm hu r
    (List.mem_of_mem_getLast? (by simp [hl]))

/-- Redirecting the root `X` to another root `Y` rewires exactly the
chains that ended at `X`. -/
theorem link_reaches {V : List Name} {p : Name → Name} {X Y : Name}
    (hInv : ParentInv V p) (hX : p X = X) (hY : p Y = Y) (hne : X ≠ Y) :
    ∀ x w, Reaches (Function.update p X Y) x w ↔
      ((Reaches p x w ∧ w ≠ X) ∨ (Reaches p x X ∧ w = Y)) := by
  have hYX : Y ≠ X := fun h => hne h.symm
  have hback : ∀ x w, ((Reaches p x w ∧ w ≠ X) ∨ (Reaches p x X ∧ w = Y)) →
      Reaches (Function.update p X Y) x w := by
    rintro x w (⟨⟨m, hm, hl⟩, hwX⟩ | ⟨⟨m, hm, hl⟩, hwY⟩)
    · have hXm : X ∉ m := by
        intro hXm
        have h1 : Reaches p X w := hm.mem_reaches hXm hl
        exact hwX (Reaches.determ h1 (Reaches.of_root hX))
      refine ⟨m, hm.congr (fun y hy => ?_), hl⟩
      have hyX : y ≠ X := fun he => hXm (he ▸ hy)
      exact Function.update_noteq hyX Y p
    · rw [hwY]
      have hXmem : X ∈ m := List.mem_of_mem_getLast? (by simp [hl])
      obtain ⟨pre, suf, hsplit⟩ := List.append_of_mem hXmem
      have hnd := hm.nodup
      have hXpre : X ∉ pre := by
        rw [hsplit, List.nodup_append] at hnd
        exact fun hp => hnd.2.2 hp (List.mem_cons_self _ _)
      have hch : PChain (Function.update p X Y) x (pre ++ [X, Y]) :=
        PChain.redirect
          (fun y hy => Function.update_noteq hy Y p)
          (Function.update_same X Y p) hYX
          (by rw [Function.update_noteq hYX Y p]; exact hY)
          (hsplit ▸ hm) hXpre
      refine ⟨pre ++ [X, Y], hch, ?_⟩
      have hlast : (pre ++ [X, Y]).getLast? = ([X, Y] : List Name).getLast? :=
        List.getLast?_append_of_ne_nil pre (by simp)
      rw [hlast]
      rfl
  intro x w
  constructor
  · intro h2
    obtain ⟨w0, hw0⟩ := hInv.reaches_total x
    by_cases hwX : w0 = X
    · rw [Reaches.determ h2 (hback x Y (Or.inr ⟨hwX ▸ hw0, rfl⟩))]
      exact Or.inr ⟨hwX ▸ hw0, rfl⟩
    · rw [Reaches.determ h2 (hback x w0 (Or.inl ⟨hw0, hwX⟩))]
      exact Or.inl ⟨hw0, hwX⟩
  · exact hback x w

/-- Redirecting root `X` to root `Y` preserves the DSU invariant. -/
theorem link_inv {V : List Name} {p : Name → Name} {X Y : Name}
    (hInv : ParentInv V p) (hX : p X = X) (hY : p Y = Y) (hne : X ≠ Y)
    (hXV : X ∈ V) (hYV : Y ∈ V) :
    ParentInv V (Function.update p X Y) := by
  refine ⟨?_, ?_, ?_⟩
  · intro y hy
    by_cases hyX : y = X
    · rw [hyX, Function.update_same]
      exact hYV
    · rw [Function.update_noteq hyX]
      exact hInv.closed y hy
  · intro y hy
    have hyX : y ≠ X := fun he => hy (he ▸ hXV)
    rw [Function.update_noteq hyX]
    exact hInv.outside y hy
  · intro u hu
    obtain ⟨w0, hw0⟩ := hInv.reaches_total u
    by_cases hwX : w0 = X
    · obtain ⟨m, hm, _⟩ :=
        (link_reaches hInv hX hY hne u Y).mpr (Or.inr ⟨hwX ▸ hw0, rfl⟩)
      exact ⟨m, hm⟩
    · obtain ⟨m, hm, _⟩ :=
        (link_reaches hInv hX hY hne u w0).mpr (Or.inl ⟨hw0, hwX⟩)
      exact ⟨m, hm⟩

/-- Redirecting root `X` to root `Y` merges exactly the two classes. -/
theorem link_sameRoot {V : List Name} {p : Name → Name} {X Y : Name}
    (hInv : ParentInv V p) (hX : p X = X) (hY : p Y = Y) (hne : X ≠ Y) :
    ∀ a b, SameRoot (Function.update p X Y) a b ↔
      (SameRoot p a b ∨ (Reaches p a X ∧ Reaches p b Y) ∨
        (Reaches p a Y ∧ Reaches p b X)) := by
  have hYX : Y ≠ X := fun h => hne h.symm
  intro a b
  have hR := link_reaches hInv hX hY hne
  constructor
  · rintro ⟨r, hra, hrb⟩
    rcases (hR a r).mp hra with ⟨ha1, _⟩ | ⟨ha1, hrY⟩
    · rcases (hR b r).mp hrb with ⟨hb1, _⟩ | ⟨hb1, hrY⟩
      · exact Or.inl ⟨r, ha1, hb1⟩
      · exact Or.inr (Or.inr ⟨hrY ▸ ha1, hb1⟩)
    · rcases (hR b r).mp hrb with ⟨hb1, _⟩ | ⟨hb1, _⟩
      · exact Or.inr (Or.inl ⟨ha1, hrY ▸ hb1⟩)
      · exact Or.inl ⟨X, ha1, hb1⟩
  · rintro (⟨r, ha1, hb1⟩ | ⟨haX, hbY⟩ | ⟨haY, hbX⟩)
    · by_cases hrX : r = X
      · exact ⟨Y, (hR a Y).mpr (Or.inr ⟨hrX ▸ ha1, rfl⟩),
          (hR b Y).mpr (Or.inr ⟨hrX ▸ hb1, rfl⟩)⟩
      · exact ⟨r, (hR a r).mpr (Or.inl ⟨ha1, hrX⟩),
          (hR b r).mpr (Or.inl ⟨hb1, hrX⟩)⟩
    · exact ⟨Y, (hR a Y).mpr (Or.inr ⟨haX, rfl⟩),
        (hR b Y).mpr (Or.inl ⟨hbY, hYX⟩)⟩
    · exact ⟨Y, (hR a Y).mpr (Or.inl ⟨haY, hYX⟩),
        (hR b Y).mpr (Or.inr ⟨hbX, rfl⟩)⟩

/-- Linking the root of `u` to the root of `v` in class terms. -/
theorem link_full {V : List Name} {p : Name → Name} {u v X Y : Name}
    (hInv : ParentInv V p) (hXr : Reaches p u X) (hYr : Reaches p v Y)
    (hX : p X = X) (hY : p Y = Y) (hne : X ≠ Y) (hXV : X ∈ V) (hYV : Y ∈ V) :
    ParentInv V (Function.update p X Y) ∧
    (∀ a b, SameRoot (Function.update p X Y) a b ↔
      (SameRoot p a b ∨ (SameRoot p a u ∧ SameRoot p b v) ∨
        (SameRoot p a v ∧ SameRoot p b u))) := by
  refine ⟨link_inv hInv hX hY hne hXV hYV, fun a b => ?_⟩
  rw [link_sameRoot hInv hX hY hne a b]
  exact or_congr Iff.rfl (or_congr
    (and_congr (sameRoot_iff_reaches hXr a).symm (sameRoot_iff_reaches hYr b).symm)
    (and_congr (sameRoot_iff_reaches hYr a).symm (sameRoot_iff_reaches hXr b).symm))

/-- Full specification of `union(u, v)`: the invariant is preserved and
the class relation gains exactly the merge of the classes of `u` and
`v` (whichever orientation the size comparison picks). -/
theorem unionD_spec {V : List Name} {fuel : Nat} {st : DSU} {u v : Name}
    (hInv : ParentInv V st.parent) (hu : u ∈ V) (hv : v ∈ V)
    (hfuel : V.length + 1 ≤ fuel) :
    ParentInv V (unionD fuel st u v).parent ∧
    (∀ a b, SameRoot (unionD fuel st u v).parent a b ↔
      (SameRoot st.parent a b ∨
        (SameRoot st.parent a u ∧ SameRoot st.parent b v) ∨
        (SameRoot st.parent a v ∧ SameRoot st.parent b u))) := by
  obtain ⟨hau, hInv1, hiff1⟩ := findD_full (u := u) hInv hu hfuel
  obtain ⟨hav, hInv2, hiff2⟩ := findD_full (u := v) hInv1 hv hfuel
  set fu := findD fuel st.parent u with hfu
  set fv := findD fuel fu.2 v with hfv
  have hav0 : Reaches st.parent v fv.1 := (hiff1 v fv.1).mp hav
  have hXroot : st.parent fu.1 = fu.1 := by
    obtain ⟨m, hm, hl⟩ := hau
    exact hm.last_root hl
  have hYroot : st.parent fv.1 = fv.1 := by
    obtain ⟨m, hm, hl⟩ := hav0
    exact hm.last_root hl
  have hiff : ∀ x w, Reaches fv.2 x w ↔ Reaches st.parent x w :=
    fun x w => (hiff2 x w).trans (hiff1 x w)
  have hX2 : fv.2 fu.1 = fu.1 :=
    Reaches.self_root ((hiff _ _).mpr (Reaches.of_root hXroot))
  have hY2 : fv.2 fv.1 = fv.1 :=
    Reaches.self_root ((hiff _ _).mpr (Reaches.of_root hYroot))
  have hsame : ∀ a b, SameRoot fv.2 a b ↔ SameRoot st.parent a b := by
    intro a b
    constructor
    · rintro ⟨r, h1, h2⟩
      exact ⟨r, (hiff a r).mp h1, (hiff b r).mp h2⟩
    · rintro ⟨r, h1, h2⟩
      exact ⟨r, (hiff a r).mpr h1, (hiff b r).mpr h2⟩
  have hXV : fu.1 ∈ V := hInv.root_mem hu hau
  have hYV : fv.1 ∈ V := hInv.root_mem hv hav0
  have hau2 : Reaches fv.2 u fu.1 := (hiff _ _).mpr hau
  have hav2 : Reaches fv.2 v fv.1 := (hiff _ _).mpr hav0
  have hun : unionD fuel st u v =
      (if fu.1 = fv.1 then { st with parent := fv.2 }
       else if st.size fu.1 < st.size fv.1 then
        { parent := Function.update fv.2 fu.1 fv.1,
          size := Function.update st.size fv.1 (st.size fv.1 + st.size fu.1) }
       else
        { parent := Function.update fv.2 fv.1 fu.1,
          size := Function.update st.size fu.1 (st.size fu.1 + st.size fv.1) }) := by
    rw [hfv, hfu]
    rfl
  rw [hun]
  by_cases heq : fu.1 = fv.1
  · rw [if_pos heq]
    refine ⟨hInv2, fun a b => ?_⟩
    dsimp only
    rw [hsame a b]
    have huv : SameRoot st.parent u v := ⟨fv.1, heq ▸ hau, hav0⟩
    constructor
    · exact Or.inl
    · rintro (h | ⟨h1, h2⟩ | ⟨h1, h2⟩)
      · exact h
      · exact h1.trans (huv.trans h2.symm)
      · exact h1.trans (huv.symm.trans h2.symm)
  · rw [if_neg heq]
    by_cases hsz : st.size fu.1 < st.size fv.1
    · rw [if_pos hsz]
      obtain ⟨hI, hS⟩ := link_full (p := fv.2) (u := u) (v := v)
        hInv2 hau2 hav2 hX2 hY2 heq hXV hYV
      refine ⟨hI, fun a b => ?_⟩
      dsimp only
      rw [hS a b]
      simp only [hsame]
    · rw [if_neg hsz]
      have hne2 : fv.1 ≠ fu.1 := fun h => heq h.symm
      obtain ⟨hI, hS⟩ := link_full (p := fv.2) (u := v) (v := u)
        hInv2 hav2 hau2 hY2 hX2 hne2 hYV hXV
      refine ⟨hI, fun a b => ?_⟩
      dsimp only
      rw [hS a b]
      simp only [hsame]
      tauto

theorem sameRoot_equiv {V : List Name} {p : Name → Name}
    (hInv : ParentInv V p) : Equivalence (SameRoot p) := by
  refine ⟨fun x => ?_, fun h => h.symm, fun h1 h2 => h1.trans h2⟩
  obtain ⟨w, hw⟩ := hInv.reaches_total x
  exact ⟨w, hw, hw⟩

/-- Two generators with interderivable basic facts generate the same
equivalence closure. -/
theorem eqvGen_congr {α : Type} {R1 R2 : α → α → Prop}
    (h12 : ∀ x y, R1 x y → Relation.EqvGen R2 x y)
    (h21 : ∀ x y, R2 x y → Relation.EqvGen R1 x y) :
    ∀ a b, Relation.EqvGen R1 a b ↔ Relation.EqvGen R2 a b := by
  have key : ∀ {S T : α → α → Prop}, (∀ x y, S x y → Relation.EqvGen T x y) →
      ∀ a b, Relation.EqvGen S a b → Relation.EqvGen T a b := by
    intro S T h a b hab
    exact (Equivalence.eqvGen_iff (Relation.EqvGen.is_equivalence T)).mp
      (Relation.EqvGen.mono h hab)
  exact fun a b => ⟨key h12 a b, key h21 a b⟩

theorem pchain_id {x : Name} {m : List Name}
    (h : PChain (fun u => u) x m) : m = [x] := by
  cases h with
  | root _ _ => rfl
  | step _ hne _ => exact absurd rfl hne

theorem sameRoot_id {a b : Name} :
    SameRoot (fun u : Name => u) a b ↔ a = b := by
  constructor
  · rintro ⟨r, ⟨m1, hm1, hl1⟩, ⟨m2, hm2, hl2⟩⟩
    rw [pchain_id hm1] at hl1
    rw [pchain_id hm2] at hl2
    simp only [List.getLast?_singleton, Option.some_inj] at hl1 hl2
    rw [hl1, hl2]
  · rintro hEq
    rw [hEq]
    exact ⟨b, Reaches.of_root rfl, Reaches.of_root rfl⟩

theorem parentInv_id {V : List Name} : ParentInv V (fun u : Name => u) :=
  ⟨fun u hu => hu, fun _ _ => rfl, fun u _ => ⟨[u], PChain.root u rfl⟩⟩

/-- Processing a pair list keeps the invariant and produces, as the
same-root relation, exactly the equivalence closure of the initial
same-root relation joined with the processed pairs. -/
theorem unionList_spec {V : List Name} {fuel : Nat}
    (hfuel : V.length + 1 ≤ fuel) :
    ∀ (ps : List (Name × Name)) (st : DSU), ParentInv V st.parent →
    (∀ q ∈ ps, q.1 ∈ V ∧ q.2 ∈ V) →
    ParentInv V (unionList fuel st ps).parent ∧
    (∀ a b, SameRoot (unionList fuel st ps).parent a b ↔
      Relation.EqvGen (fun x y => SameRoot st.parent x y ∨ (x, y) ∈ ps) a b)
  | [], st, hInv, _ => by
    refine ⟨hInv, fun a b => ?_⟩
    have he : Equivalence
        (fun x y : Name =>
          SameRoot st.parent x y ∨ (x, y) ∈ ([] : List (Name × Name))) := by
      simp only [List.not_mem_nil, or_false]
      exact sameRoot_equiv hInv
    rw [show unionList fuel st [] = st from rfl, Equivalence.eqvGen_iff he]
    simp
  | (u, v) :: ps, st, hInv, hmem => by
    have hu : u ∈ V := (hmem (u, v) (List.mem_cons_self _ _)).1
    have hv : v ∈ V := (hmem (u, v) (List.mem_cons_self _ _)).2
    obtain ⟨hI, hS⟩ := unionD_spec hInv hu hv hfuel
    obtain ⟨hI2, hS2⟩ := unionList_spec hfuel ps (unionD fuel st u v) hI
      (fun q hq => hmem q (List.mem_cons_of_mem _ hq))
    rw [show unionList fuel st ((u, v) :: ps) =
      unionList fuel (unionD fuel st u v) ps from rfl]
    refine ⟨hI2, fun a b => ?_⟩
    rw [hS2 a b]
    apply eqvGen_congr
    · rintro x y (hxy | hxy)
      · rcases (hS x y).mp hxy with h | ⟨h1, h2⟩ | ⟨h1, h2⟩
        · exact Relation.EqvGen.rel _ _ (Or.inl h)
        · refine Relation.EqvGen.trans _ u _ ?_ (Relation.EqvGen.trans _ v _ ?_ ?_)
          · exact Relation.EqvGen.rel _ _ (Or.inl h1)
          · exact Relation.EqvGen.rel _ _ (Or.inr (List.mem_cons_self _ _))
          · exact Relation.EqvGen.symm _ _ (Relation.EqvGen.rel _ _ (Or.inl h2))
        · refine Relation.EqvGen.trans _ v _ ?_ (Relation.EqvGen.trans _ u _ ?_ ?_)
          · exact Relation.EqvGen.rel _ _ (Or.inl h1)
          · exact Relation.EqvGen.symm _ _
              (Relation.EqvGen.rel _ _ (Or.inr (List.mem_cons_self _ _)))
          · exact Relation.EqvGen.symm _ _ (Relation.EqvGen.rel _ _ (Or.inl h2))
      · exact Relation.EqvGen.rel _ _ (Or.inr (List.mem_cons_of_mem _ hxy))
    · rintro x y (hxy | hxy)
      · exact Relation.EqvGen.rel _ _ (Or.inl ((hS x y).mpr (Or.inl hxy)))
      · rcases List.mem_cons.mp hxy with hEq | hmem2
        · have hx : x = u := congrArg Prod.fst hEq
          have hy : y = v := congrArg Prod.snd hEq
          subst hx
          subst hy
          refine Relation.EqvGen.rel _ _
            (Or.inl ((hS x y).mpr (Or.inr (Or.inl ⟨?_, ?_⟩))))
          · obtain ⟨w, hw⟩ := hInv.reaches_total x
            exact ⟨w, hw, hw⟩
          · obtain ⟨w, hw⟩ := hInv.reaches_total y
            exact ⟨w, hw, hw⟩
        · exact Relation.EqvGen.rel _ _ (Or.inr hmem2)

theorem unionList_append (fuel : Nat) :
    ∀ (l1 l2 : List (Name × Name)) (st : DSU),
    unionList fuel st (l1 ++ l2) = unionList fuel (unionList fuel st l1) l2
  | [], l2, st => rfl
  | q :: l1, l2, st => by
    rw [List.cons_append]
    exact unionList_append fuel l1 l2 (unionD fuel st q.1 q.2)

theorem foldl_nbr_eq_unionList (fuel : Nat) (u : Name) :
    ∀ (ns : List Nbr) (st : DSU),
    ns.foldl (fun s2 n => unionD fuel s2 u n.node) st =
      unionList fuel st (ns.map (fun n => (u, n.node)))
  | [], st => rfl
  | n :: ns, st => by
    rw [List.foldl_cons, List.map_cons]
    exact foldl_nbr_eq_unionList fuel u ns (unionD fuel st u n.node)

/-- The nested union loop equals the flattened pair-list loop. -/
theorem unionAll_eq_unionList (fuel : Nat) (graph : Name → List Nbr) :
    ∀ (validNodes : List Name) (st : DSU),
    unionAll fuel validNodes graph st =
      unionList fuel st (unionPairs validNodes graph)
  | [], st => rfl
  | u :: vs, st => by
    show unionAll fuel vs graph
      ((graph u).foldl (fun s2 n => unionD fuel s2 u n.node) st) = _
    have hp : unionPairs (u :: vs) graph =
        (graph u).map (fun n => (u, n.node)) ++ unionPairs vs graph := by
      simp [unionPairs]
    rw [hp, unionList_append, ← foldl_nbr_eq_unionList]
    exact unionAll_eq_unionList fuel graph vs _

/-- Membership after one step of the adjacency-building fold. -/
theorem buildAdj_step_mem (gs : GraphState) (g : Name → List Nbr) (e : Edge)
    (u : Name) (n : Nbr) :
    n ∈ ((fun (g : Name → List Nbr) (e : Edge) =>
      let g1 := Function.update g e.src (g e.src ++ [⟨e.tgt, e.w⟩])
      if gs.isDirected then g1
      else Function.update g1 e.tgt (g1 e.tgt ++ [⟨e.src, e.w⟩])) g e) u ↔
    (n ∈ g u ∨ ((e.src = u ∧ n = ⟨e.tgt, e.w⟩) ∨
      (gs.isDirected = false ∧ e.tgt = u ∧ n = ⟨e.src, e.w⟩))) := by
  obtain ⟨s, t, w⟩ := e
  dsimp only
  by_cases hd : gs.isDirected = true
  · rw [if_pos hd, Function.update_apply]
    by_cases hsu : u = s
    · subst hsu
      simp [hd, List.mem_append]
    · rw [if_neg hsu]
      simp [hd, Ne.symm hsu]
  · rw [if_neg hd]
    have hd2 : gs.isDirected = false := by simpa using hd
    simp only [Function.update_apply, hd2]
    by_cases htu : u = t
    · subst htu
      rw [if_pos rfl]
      by_cases hts : u = s
      · subst hts
        rw [if_pos rfl]
        simp only [List.mem_append, List.mem_singleton]
        tauto
      · rw [if_neg hts]
        simp only [List.mem_append, List.mem_singleton]
        have h1 : ¬ s = u := fun h => hts h.symm
        simp [h1]
    · rw [if_neg htu]
      by_cases hsu : u = s
      · subst hsu
        rw [if_pos rfl]
        simp only [List.mem_append, List.mem_singleton]
        have h1 : ¬ t = u := fun h => htu h.symm
        simp [h1]
      · rw [if_neg hsu]
        have h1 : ¬ s = u := fun h => hsu h.symm
        have h2 : ¬ t = u := fun h => htu h.symm
        simp [h1, h2]

/-- Membership in the adjacency fold over an edge list. -/
theorem buildAdj_fold_mem (gs : GraphState) :
    ∀ (E : List Edge) (g : Name → List Nbr) (u : Name) (n : Nbr),
    n ∈ (E.foldl (fun (g : Name → List Nbr) (e : Edge) =>
      let g1 := Function.update g e.src (g e.src ++ [⟨e.tgt, e.w⟩])
      if gs.isDirected then g1
      else Function.update g1 e.tgt (g1 e.tgt ++ [⟨e.src, e.w⟩])) g) u ↔
    (n ∈ g u ∨ ((∃ e ∈ E, e.src = u ∧ n = ⟨e.tgt, e.w⟩) ∨
      (gs.isDirected = false ∧ ∃ e ∈ E, e.tgt = u ∧ n = ⟨e.src, e.w⟩)))
  | [], g, u, n => by simp
  | e :: E, g, u, n => by
    rw [List.foldl_cons, buildAdj_fold_mem gs E _ u n, buildAdj_step_mem gs g e u n]
    have hc1 : (∃ x ∈ e :: E, x.src = u ∧ n = ⟨x.tgt, x.w⟩) ↔
        ((e.src = u ∧ n = ⟨e.tgt, e.w⟩) ∨
          ∃ x ∈ E, x.src = u ∧ n = ⟨x.tgt, x.w⟩) := by
      simp
    have hc2 : (∃ x ∈ e :: E, x.tgt = u ∧ n = ⟨x.src, x.w⟩) ↔
        ((e.tgt = u ∧ n = ⟨e.src, e.w⟩) ∨
          ∃ x ∈ E, x.tgt = u ∧ n = ⟨x.src, x.w⟩) := by
      simp
    rw [hc1, hc2]
    itauto

/-- Membership in `buildAdjacencyList`: exactly the forward entries of the
edges (plus the reverse entries in undirected mode). -/
theorem mem_buildAdjacencyList (V : List Name) (E : List Edge) (gs : GraphState)
    (u : Name) (n : Nbr) :
    n ∈ buildAdjacencyList V E gs u ↔
      ((∃ e ∈ E, e.src = u ∧ n = ⟨e.tgt, e.w⟩) ∨
       (gs.isDirected = false ∧ ∃ e ∈ E, e.tgt = u ∧ n = ⟨e.src, e.w⟩)) := by
  have h := buildAdj_fold_mem gs E (fun _ => []) u n
  simpa using h

theorem unionPairs_mem {V : List Name} {graph : Name → List Nbr}
    {x y : Name} :
    (x, y) ∈ unionPairs V graph ↔
      (x ∈ V ∧ ∃ n ∈ graph x, n.node = y) := by
  simp only [unionPairs, List.mem_flatMap, List.mem_map, Prod.mk.injEq]
  constructor
  · rintro ⟨u, hu, n, hn, hux, hny⟩
    rw [← hux]
    exact ⟨hu, n, hn, hny⟩
  · rintro ⟨hx, n, hn, hny⟩
    exact ⟨x, hx, n, hn, rfl, hny⟩

/-- The pairs visited by the union loop generate exactly the undirected
connectivity of the valid edges (in both modes: the reverse adjacency
entries of undirected mode are absorbed by the symmetry of the closure,
and in directed mode the closure supplies the symmetry itself). -/
theorem eqvGen_pairs_iff_conn {V : List Name} {E : List Edge} {gs : GraphState}
    (hE : ∀ e ∈ E, e.src ∈ V ∧ e.tgt ∈ V) :
    ∀ a b, Relation.EqvGen
      (fun x y => (x, y) ∈ unionPairs V (buildAdjacencyList V E gs)) a b ↔
      Conn E a b := by
  apply eqvGen_congr
  · intro x y hxy
    rw [unionPairs_mem] at hxy
    obtain ⟨hx, n, hn, hny⟩ := hxy
    rw [mem_buildAdjacencyList] at hn
    rcases hn with ⟨e, he, hsrc, hnval⟩ | ⟨hdir, e, he, htgt, hnval⟩
    · refine Relation.EqvGen.rel _ _ ⟨e, he, hsrc, ?_⟩
      rw [← hny, hnval]
    · refine Relation.EqvGen.symm _ _ (Relation.EqvGen.rel _ _ ⟨e, he, ?_, htgt⟩)
      rw [← hny, hnval]
  · rintro x y ⟨e, he, hsx, hty⟩
    refine Relation.EqvGen.rel _ _ ?_
    rw [unionPairs_mem]
    refine ⟨hsx ▸ (hE e he).1, ⟨e.tgt, e.w⟩, ?_, hty⟩
    rw [mem_buildAdjacencyList]
    exact Or.inl ⟨e, he, hsx, rfl⟩

/-- The final mapping loop: ids in order, every record's group is its
node's root. -/
theorem groupLoop_spec {V : List Name} {fuel : Nat}
    (hfuel : V.length + 1 ≤ fuel) :
    ∀ (us : List Name) (p : Name → Name), ParentInv V p → (∀ u ∈ us, u ∈ V) →
    ((groupLoop fuel p us).1.map NodeRec.id = us ∧
     ∀ nr ∈ (groupLoop fuel p us).1, Reaches p nr.id nr.group)
  | [], p, _, _ => by
    refine ⟨rfl, fun nr hnr => absurd hnr (List.not_mem_nil nr)⟩
  | node :: rest, p, hInv, hus => by
    obtain ⟨hroot, hInv2, hiff⟩ :=
      findD_full (u := node) hInv (hus node (List.mem_cons_self _ _)) hfuel
    obtain ⟨hmap, hall⟩ := groupLoop_spec hfuel rest (findD fuel p node).2 hInv2
      (fun u hu => hus u (List.mem_cons_of_mem _ hu))
    rw [show groupLoop fuel p (node :: rest) =
      (⟨node, (findD fuel p node).1⟩ ::
          (groupLoop fuel (findD fuel p node).2 rest).1,
        (groupLoop fuel (findD fuel p node).2 rest).2) from rfl]
    dsimp only
    constructor
    · rw [List.map_cons, hmap]
    · intro nr hnr
      rcases List.mem_cons.mp hnr with hEq | hmem
      · rw [hEq]
        exact hroot
      · exact (hiff nr.id nr.group).mp (hall nr hmem)

/-- C3: for every list of valid nodes, every list of valid edges whose
endpoints are valid nodes, and both values of `isDirected`, `assignGroups`
over `buildAdjacencyList` emits one record per valid node in order, and two
records carry the same `group` value exactly when their nodes are connected
by a path of valid edges ignoring direction (weak connectivity, also in
directed mode). -/
theorem grouping_matches_weak_connectivity {V : List Name} {E : List Edge}
    {gs : GraphState} (hE : ∀ e ∈ E, e.src ∈ V ∧ e.tgt ∈ V) :
    ((assignGroups V (buildAdjacencyList V E gs)).map NodeRec.id = V) ∧
    (∀ nr ∈ assignGroups V (buildAdjacencyList V E gs),
     ∀ nr2 ∈ assignGroups V (buildAdjacencyList V E gs),
      (nr.group = nr2.group ↔ Conn E nr.id nr2.id)) := by
  have hfuel : V.length + 1 ≤ V.length + 1 := le_refl _
  have hpairs : ∀ q ∈ unionPairs V (buildAdjacencyList V E gs),
      q.1 ∈ V ∧ q.2 ∈ V := by
    rintro ⟨x, y⟩ hq
    rw [unionPairs_mem] at hq
    obtain ⟨hx, n, hn, hny⟩ := hq
    refine ⟨hx, ?_⟩
    rw [mem_buildAdjacencyList] at hn
    rcases hn with ⟨e, he, _, hnval⟩ | ⟨_, e, he, _, hnval⟩
    · rw [← hny, hnval]
      exact (hE e he).2
    · rw [← hny, hnval]
      exact (hE e he).1
  obtain ⟨hIfin, hSfin⟩ := unionList_spec hfuel
    (unionPairs V (buildAdjacencyList V E gs))
    { parent := fun u => u, size := fun _ => 1 } parentInv_id hpairs
  have hSR : ∀ a b,
      SameRoot (unionList (V.length + 1)
        { parent := fun u => u, size := fun _ => 1 }
        (unionPairs V (buildAdjacencyList V E gs))).parent a b ↔
      Conn E a b := by
    intro a b
    have h12 : ∀ x y, (SameRoot (fun u : Name => u) x y ∨
        (x, y) ∈ unionPairs V (buildAdjacencyList V E gs)) →
        Relation.EqvGen (fun x y =>
          (x, y) ∈ unionPairs V (buildAdjacencyList V E gs)) x y := by
      rintro x y (hxy | hxy)
      · have hxy2 : x = y := sameRoot_id.mp hxy
        rw [hxy2]
        exact Relation.EqvGen.refl y
      · exact Relation.EqvGen.rel _ _ hxy
    have h21 : ∀ x y, ((x, y) ∈ unionPairs V (buildAdjacencyList V E gs)) →
        Relation.EqvGen (fun x y => SameRoot (fun u : Name => u) x y ∨
          (x, y) ∈ unionPairs V (buildAdjacencyList V E gs)) x y :=
      fun x y hxy => Relation.EqvGen.rel _ _ (Or.inr hxy)
    exact (hSfin a b).trans
      ((eqvGen_congr h12 h21 a b).trans (eqvGen_pairs_iff_conn hE a b))
  have hag : assignGroups V (buildAdjacencyList V E gs) =
      (groupLoop (V.length + 1)
        (unionList (V.length + 1)
          { parent := fun u => u, size := fun _ => 1 }
          (unionPairs V (buildAdjacencyList V E gs))).parent V).1 := by
    rw [show assignGroups V (buildAdjacencyList V E gs) =
      (groupLoop (V.length + 1)
        (unionAll (V.length + 1) V (buildAdjacencyList V E gs)
          { parent := fun u => u, size := fun _ => 1 }).parent V).1 from rfl]
    rw [unionAll_eq_unionList]
  obtain ⟨hmap, hall⟩ := groupLoop_spec hfuel V _ hIfin (fun u hu => hu)
  rw [hag]
  refine ⟨hmap, fun nr hnr nr2 hnr2 => ?_⟩
  have h1 := hall nr hnr
  have h2 := hall nr2 hnr2
  rw [← hSR nr.id nr2.id]
  constructor
  · intro hg
    exact ⟨nr.group, h1, hg ▸ h2⟩
  · rintro ⟨r, hr1, hr2⟩
    rw [Reaches.determ h1 hr1, Reaches.determ h2 hr2]

theorem grouping_matches_weak_connectivity_witness :
    (∀ e ∈ [(⟨str "A", str "B", 1⟩ : Edge)],
      e.src ∈ [str "A", str "B", str "C"] ∧
      e.tgt ∈ [str "A", str "B", str "C"]) ∧
    ((assignGroups [str "A", str "B", str "C"]
        (buildAdjacencyList [str "A", str "B", str "C"]
          [⟨str "A", str "B", 1⟩] ⟨true, true, [], []⟩)).map NodeRec.id =
      [str "A", str "B", str "C"]) ∧
    Conn [(⟨str "A", str "B", 1⟩ : Edge)] (str "A") (str "B") := by
  have h := @grouping_matches_weak_connectivity
    [str "A", str "B", str "C"] [⟨str "A", str "B", 1⟩]
    ⟨true, true, [], []⟩ (by decide)
  refine ⟨by decide, h.1, ?_⟩
  have h2 := h.2 ⟨str "A", str "A"⟩ (by decide) ⟨str "B", str "A"⟩ (by decide)
  exact h2.mp (by decide)

end GraphViz
